import Mathlib

/-!
# The undo/redo history manager of darktable (`src/views/undo.c`)

A shallow embedding of `undo.c` and theorems about it.

Modelling conventions.

* Pointers (`gpointer`, `dt_undo_data_t *`, function pointers) are natural
  numbers, `0` being `NULL`.  Calling a `NULL` function pointer is a crash: the
  operations that may do so return `Option`, `none` being the crash.
* A `dt_undo_item_t *` stored in a list node is an `Item`: the address of the
  heap cell together with its contents (the fields of an item are written once,
  right after `malloc`, and never changed).  Pointer comparison, as done by
  `g_list_remove`, compares addresses only.
* `malloc` is assumed to succeed; the address it returns is an argument of the
  operation that allocates (`p`), so every statement holds for any allocator.
* A `GList *` is a `List Item`.  A cursor `l` walking a list is the list of the
  nodes from `l` on; removing the node under the cursor, or one before it, never
  changes the nodes after it.
* Calls that leave `undo.c` (mutex, callbacks, `free`) are recorded, in order,
  as a trace of `Event`s.
-/

namespace Undo

/-- The C struct `dt_undo_item_t`; the two callbacks are function pointers. -/
structure dt_undo_item_t where
  user_data : Nat
  type : Nat
  data : Nat
  is_group : Bool
  tag : Nat
  undo : Nat
  free_data : Nat
deriving DecidableEq, Repr

/-- A pointer to a heap allocated `dt_undo_item_t`: address and pointee. -/
structure Item where
  addr : Nat
  obj : dt_undo_item_t
deriving DecidableEq, Repr

/-- A doubly linked list of item pointers, seen from its head. -/
abbrev GList := List Item

/-- The fields of `dt_undo_t` that `undo.c` reads and writes (the mutex shows
up in the trace only). -/
structure dt_undo_t where
  undo_list : GList
  redo_list : GList
  group : Nat
deriving DecidableEq, Repr

/-- What `undo.c` does to the outside world. -/
inductive Event where
  | lock : Event
  | unlock : Event
  | mutex_destroy : Event
  | undo (fn user_data type data : Nat) : Event
  | free_data (fn data : Nat) : Event
  | free (addr : Nat) : Event
  | apply (fn user_data type data : Nat) : Event
deriving DecidableEq, Repr

/-- The null pointer. -/
def NULL : Nat := 0

/-- Wrap-around of a C `int` (32 bit, two's complement). -/
def int_wrap (i : Int) : Int := (i + 2 ^ 31) % 2 ^ 32 - 2 ^ 31

/-- The test `item->type & filter` with both operands converted to `uint32_t`. -/
def type_matches (type filter : Nat) : Bool :=
  ((type % 2 ^ 32) &&& (filter % 2 ^ 32)) != 0

/-- GLib `g_list_first`: the head of the list a node belongs to.  Every list
pointer `undo.c` passes is already the head. -/
def g_list_first (list : GList) : GList := list

/-- GLib `g_list_remove`: drops the first node whose data pointer is `item`. -/
def g_list_remove : GList → Item → GList
  | [], _ => []
  | x :: xs, item => if x.addr = item.addr then xs else x :: g_list_remove xs item

/-- GLib `g_list_prepend`. -/
def g_list_prepend (list : GList) (item : Item) : GList := item :: list

/-- The call `item->undo(item->user_data, item->type, item->data)`. -/
def call_undo (item : Item) : Option (List Event) :=
  if item.obj.undo = NULL then none
  else some [Event.undo item.obj.undo item.obj.user_data item.obj.type item.obj.data]

/-- The function `_free_undo_data` of `undo.c`. -/
def _free_undo_data (item : Item) : List Event :=
  (if item.obj.free_data ≠ NULL then [Event.free_data item.obj.free_data item.obj.data] else [])
    ++ [Event.free item.addr]

/-- GLib `g_list_free_full (list, _free_undo_data)`. -/
def g_list_free_full : GList → List Event
  | [] => []
  | x :: xs => _free_undo_data x ++ g_list_free_full xs

/-- The function `dt_undo_init`. -/
def dt_undo_init : dt_undo_t :=
  { undo_list := [], redo_list := [], group := 0 }

/-- The function `_undo_record`; `p` is the address `malloc` returns. -/
def _undo_record (self : dt_undo_t) (p : Nat) (user_data type data : Nat) (is_group : Bool)
    (tag undo free_data : Nat) : Option (dt_undo_t × List Event) :=
  let top := g_list_first self.undo_list
  let top_item : Option Item := top.head?
  if tag == 0 || (match top_item with
                  | none => true
                  | some t => t.obj.tag != tag) then
    let item : Item :=
      { addr := p
        obj := { user_data := user_data, type := type, data := data, undo := undo,
                 free_data := free_data, is_group := is_group, tag := tag } }
    let self1 := { self with undo_list := g_list_prepend self.undo_list item }
    let ev := g_list_free_full self1.redo_list
    let self2 := { self1 with redo_list := [] }
    some (self2, [Event.lock] ++ ev ++ [Event.unlock])
  else
    if free_data = NULL then none
    else some (self, [Event.free_data free_data data])

/-- The function `dt_undo_start_group`. -/
def dt_undo_start_group (self : dt_undo_t) (p : Nat) (type : Nat) :
    Option (dt_undo_t × List Event) :=
  let self1 := { self with group := type }
  _undo_record self1 p NULL type NULL true 0 NULL NULL

/-- The function `dt_undo_end_group`. -/
def dt_undo_end_group (self : dt_undo_t) (p : Nat) : Option (dt_undo_t × List Event) :=
  match _undo_record self p NULL self.group NULL true 0 NULL NULL with
  | none => none
  | some (self1, ev) => some ({ self1 with group := 0 }, ev)

/-- The function `dt_undo_record`. -/
def dt_undo_record (self : dt_undo_t) (p : Nat) (user_data type data tag undo free_data : Nat) :
    Option (dt_undo_t × List Event) :=
  _undo_record self p user_data type data false tag undo free_data

/-- The `while(l)` loop of `dt_undo_do_redo`. -/
def dt_undo_do_redo.loop (filter : Nat) :
    GList → dt_undo_t → Bool → Int → Option (dt_undo_t × List Event)
  | [], self, _, _ => some (self, [])
  | item :: next, self, is_group, count =>
    if type_matches item.obj.type filter then
      let is_group1 := if item.obj.is_group && count == 1 then true else is_group
      let self1 := { self with redo_list := g_list_remove self.redo_list item }
      match (if !item.obj.is_group then call_undo item else some []) with
      | none => none
      | some ev =>
        let self2 := { self1 with undo_list := g_list_prepend self1.undo_list item }
        if !is_group1 || (item.obj.is_group && count > 1) then some (self2, ev)
        else
          match dt_undo_do_redo.loop filter next self2 is_group1 (int_wrap (count + 1)) with
          | none => none
          | some (self3, ev3) => some (self3, ev ++ ev3)
    else dt_undo_do_redo.loop filter next self is_group count

/-- The function `dt_undo_do_redo`. -/
def dt_undo_do_redo (self : dt_undo_t) (filter : Nat) : Option (dt_undo_t × List Event) :=
  match dt_undo_do_redo.loop filter (g_list_first self.redo_list) self false 1 with
  | none => none
  | some (self1, ev) => some (self1, [Event.lock] ++ ev ++ [Event.unlock])

/-- The inner `while (l)` loop of `dt_undo_do_undo` ("move whole group"). -/
def dt_undo_do_undo.group_loop : GList → dt_undo_t → dt_undo_t
  | [], self => self
  | g_item :: g_next, self =>
    let self1 := { self with undo_list := g_list_remove self.undo_list g_item }
    let self2 := { self1 with redo_list := g_list_prepend self1.redo_list g_item }
    if g_item.obj.is_group then self2
    else dt_undo_do_undo.group_loop g_next self2

/-- The first `while(l)` loop of `dt_undo_do_undo`. -/
def dt_undo_do_undo.move_loop (filter : Nat) : GList → dt_undo_t → dt_undo_t
  | [], self => self
  | item :: next, self =>
    if type_matches item.obj.type filter then
      let self1 := { self with undo_list := g_list_remove self.undo_list item }
      let self2 := { self1 with redo_list := g_list_prepend self1.redo_list item }
      if item.obj.is_group then dt_undo_do_undo.group_loop next self2
      else self2
    else dt_undo_do_undo.move_loop filter next self

/-- The second `while(l)` loop of `dt_undo_do_undo` ("call undo"). -/
def dt_undo_do_undo.replay_loop (filter : Nat) : GList → Bool → Int → Option (List Event)
  | [], _, _ => some []
  | item :: next, is_group, count =>
    if type_matches item.obj.type filter then
      let is_group1 := if item.obj.is_group && count == 1 then true else is_group
      match (if !item.obj.is_group then call_undo item else some []) with
      | none => none
      | some ev =>
        if !is_group1 || (item.obj.is_group && count > 1) then some ev
        else
          match dt_undo_do_undo.replay_loop filter next is_group1 (int_wrap (count + 1)) with
          | none => none
          | some ev3 => some (ev ++ ev3)
    else dt_undo_do_undo.replay_loop filter next is_group count

/-- The function `dt_undo_do_undo`. -/
def dt_undo_do_undo (self : dt_undo_t) (filter : Nat) : Option (dt_undo_t × List Event) :=
  let self1 := dt_undo_do_undo.move_loop filter (g_list_first self.undo_list) self
  match dt_undo_do_undo.replay_loop filter (g_list_first self1.undo_list) false 1 with
  | none => none
  | some ev => some (self1, [Event.lock] ++ ev ++ [Event.unlock])

/-- The `while(l)` loop of `_undo_clear_list`; the second list is `*list`. -/
def _undo_clear_list.loop (filter : Nat) : GList → GList → GList × List Event
  | [], list => (list, [])
  | item :: next, list =>
    if type_matches item.obj.type filter then
      let list1 := g_list_remove list item
      let ev := _free_undo_data item
      let r := _undo_clear_list.loop filter next list1
      (r.1, ev ++ r.2)
    else _undo_clear_list.loop filter next list

/-- The function `_undo_clear_list`: the new value of `*list` and the trace. -/
def _undo_clear_list (list : GList) (filter : Nat) : GList × List Event :=
  _undo_clear_list.loop filter (g_list_first list) list

/-- The function `dt_undo_clear`. -/
def dt_undo_clear (self : dt_undo_t) (filter : Nat) : dt_undo_t × List Event :=
  let r1 := _undo_clear_list self.undo_list filter
  let self1 := { self with undo_list := r1.1 }
  let r2 := _undo_clear_list self1.redo_list filter
  let self2 := { self1 with redo_list := r2.1 }
  let self3 := { self2 with undo_list := [] }
  let self4 := { self3 with redo_list := [] }
  (self4, [Event.lock] ++ r1.2 ++ r2.2 ++ [Event.unlock])

/-- The function `dt_undo_cleanup`; `DT_UNDO_ALL` is a constant of `undo.h`. -/
def dt_undo_cleanup (DT_UNDO_ALL : Nat) (self : dt_undo_t) : dt_undo_t × List Event :=
  let r := dt_undo_clear self DT_UNDO_ALL
  (r.1, r.2 ++ [Event.mutex_destroy])

/-- The function `_undo_iterate`. -/
def _undo_iterate (filter user_data apply : Nat) : GList → Option (List Event)
  | [] => some []
  | item :: next =>
    if !item.obj.is_group && type_matches item.obj.type filter then
      if apply = NULL then none
      else
        match _undo_iterate filter user_data apply next with
        | none => none
        | some ev => some (Event.apply apply user_data item.obj.type item.obj.data :: ev)
    else _undo_iterate filter user_data apply next

/-- The function `dt_undo_iterate`. -/
def dt_undo_iterate (self : dt_undo_t) (filter user_data : Nat) (lock : Bool) (apply : Nat) :
    Option (List Event) :=
  match _undo_iterate filter user_data apply (g_list_first self.undo_list) with
  | none => none
  | some ev1 =>
    match _undo_iterate filter user_data apply (g_list_first self.redo_list) with
    | none => none
    | some ev2 =>
      some ((if lock then [Event.lock] else []) ++ ev1 ++ ev2
        ++ (if lock then [Event.unlock] else []))

/-! ## Observations on a trace -/

/-- The release calls of a trace, in order: callback and payload. -/
def releases : List Event → List (Nat × Nat)
  | [] => []
  | Event.free_data fn data :: tr => (fn, data) :: releases tr
  | _ :: tr => releases tr

/-- The replay calls of a trace, in order: callback, owner context, kind and
payload. -/
def replays : List Event → List (Nat × Nat × Nat × Nat)
  | [] => []
  | Event.undo fn user_data type data :: tr => (fn, user_data, type, data) :: replays tr
  | _ :: tr => replays tr

/-- The release call `_free_undo_data` makes for an entry: none when the entry
has no release callback. -/
def release_of (item : Item) : List (Nat × Nat) :=
  if item.obj.free_data ≠ NULL then [(item.obj.free_data, item.obj.data)] else []

/-- The replay call made for an entry. -/
def replay_of (item : Item) : Nat × Nat × Nat × Nat :=
  (item.obj.undo, item.obj.user_data, item.obj.type, item.obj.data)

/-- The entry `dt_undo_record` allocates at `p` and fills in. -/
def real_item (p user_data type data tag undo free_data : Nat) : Item :=
  { addr := p
    obj := { user_data := user_data, type := type, data := data, is_group := false,
             tag := tag, undo := undo, free_data := free_data } }

/-- The boundary entry `dt_undo_start_group` and `dt_undo_end_group` allocate
at `p`: no owner context, no payload, no callbacks, tag 0. -/
def group_item (p type : Nat) : Item :=
  { addr := p
    obj := { user_data := NULL, type := type, data := NULL, is_group := true,
             tag := 0, undo := NULL, free_data := NULL } }

/-- The arguments of one `dt_undo_record` call, with the address `malloc` hands
out for it. -/
structure record_args where
  p : Nat
  user_data : Nat
  type : Nat
  data : Nat
  tag : Nat
  undo : Nat
  free_data : Nat
deriving DecidableEq, Repr

/-- The entry a call with these arguments creates when it is not coalesced. -/
def record_args.item (a : record_args) : Item :=
  real_item a.p a.user_data a.type a.data a.tag a.undo a.free_data

/-- A sequence of `dt_undo_record` calls, one after the other. -/
def dt_undo_record_all : dt_undo_t → List record_args → Option (dt_undo_t × List Event)
  | self, [] => some (self, [])
  | self, a :: rest =>
    match dt_undo_record self a.p a.user_data a.type a.data a.tag a.undo a.free_data with
    | none => none
    | some (self1, ev1) =>
      match dt_undo_record_all self1 rest with
      | none => none
      | some (self2, ev2) => some (self2, ev1 ++ ev2)

/-- A record call with this tag is coalesced in this state: the tag is nonzero
and is the tag of the most recent entry of `past`. -/
def coalesces (self : dt_undo_t) (tag : Nat) : Bool :=
  tag != 0 &&
    match self.undo_list with
    | [] => false
    | top :: _ => top.obj.tag == tag

/-- None of the calls of the sequence is coalesced when they are made one
after the other from this state. -/
def none_coalesced : dt_undo_t → List record_args → Bool
  | _, [] => true
  | self, a :: rest =>
    !coalesces self a.tag &&
      match dt_undo_record self a.p a.user_data a.type a.data a.tag a.undo a.free_data with
      | none => false
      | some (self1, _) => none_coalesced self1 rest

/-- The same operation `n` times in a row. -/
def repeat_op (op : dt_undo_t → Option (dt_undo_t × List Event)) :
    Nat → dt_undo_t → Option (dt_undo_t × List Event)
  | 0, self => some (self, [])
  | n + 1, self =>
    match op self with
    | none => none
    | some (self1, ev1) =>
      match repeat_op op n self1 with
      | none => none
      | some (self2, ev2) => some (self2, ev1 ++ ev2)

/-- Every non-boundary entry of the list has a replay callback. -/
def callbacks_ok (l : GList) : Bool :=
  l.all fun x => x.obj.is_group || x.obj.undo != NULL

/-- The event of the call `item->undo(item->user_data, item->type, item->data)`. -/
def undo_event (item : Item) : Event :=
  Event.undo item.obj.undo item.obj.user_data item.obj.type item.obj.data

/-- The script of the undo/redo trace example: record `a`, `b`, `c` on a freshly
initialised manager, then `doUndo`, `doUndo`, `doRedo` with the same filter.
The result is the replay calls of each of the last three calls. -/
def record3_undo2_redo1 (a b c : record_args) (filter : Nat) :
    Option (List (Nat × Nat × Nat × Nat) × List (Nat × Nat × Nat × Nat)
      × List (Nat × Nat × Nat × Nat)) :=
  match dt_undo_record_all dt_undo_init [a, b, c] with
  | none => none
  | some (s3, _) =>
    match dt_undo_do_undo s3 filter with
    | none => none
    | some (s4, ev4) =>
      match dt_undo_do_undo s4 filter with
      | none => none
      | some (s5, ev5) =>
        match dt_undo_do_redo s5 filter with
        | none => none
        | some (_, ev6) => some (replays ev4, replays ev5, replays ev6)

/-- The entries of a list from its head up to and including the first
boundary entry (all of them when there is none). -/
def group_span : GList → GList
  | [] => []
  | x :: xs => if x.obj.is_group then [x] else x :: group_span xs

/-- What is left of a list after `group_span`. -/
def group_rest : GList → GList
  | [] => []
  | x :: xs => if x.obj.is_group then xs else group_rest xs

/-- The span of `past` that `doUndo(filter)` takes, in list order: the first
entry whose kind matches the filter and, when that entry is a boundary entry,
the entries after it up to and including the next boundary entry. -/
def undo_span (filter : Nat) : GList → GList
  | [] => []
  | x :: xs =>
    if type_matches x.obj.type filter then
      if x.obj.is_group then x :: group_span xs else [x]
    else undo_span filter xs

/-- The entries of `past` outside `undo_span`, in list order. -/
def undo_rest (filter : Nat) : GList → GList
  | [] => []
  | x :: xs =>
    if type_matches x.obj.type filter then
      if x.obj.is_group then group_rest xs else xs
    else x :: undo_rest filter xs

/-- A manager state for the examples: one entry with tag 5 in `past`, an entry
with a release callback and a boundary entry in `future`. -/
def sample_state : dt_undo_t :=
  { undo_list := [real_item 1 10 2 20 5 30 40],
    redo_list := [real_item 2 11 4 21 0 31 41, group_item 3 4],
    group := 0 }

/-- The visitor calls of a trace, in order: callback, context, kind and
payload. -/
def visits : List Event → List (Nat × Nat × Nat × Nat)
  | [] => []
  | Event.apply fn user_data type data :: tr => (fn, user_data, type, data) :: visits tr
  | _ :: tr => visits tr

/-- The entries `iterate(filter, ...)` visits in a list: the non-boundary
entries whose kind matches the filter, in list order. -/
def visited (filter : Nat) (l : GList) : GList :=
  l.filter fun x => !x.obj.is_group && type_matches x.obj.type filter

/-- Every replay and release callback of the trace is called while the mutex
is held; the flag says whether it is held at the start of the trace. -/
def callbacks_locked : Bool → List Event → Bool
  | _, [] => true
  | _, Event.lock :: tr => callbacks_locked true tr
  | _, Event.unlock :: tr => callbacks_locked false tr
  | held, Event.undo _ _ _ _ :: tr => held && callbacks_locked held tr
  | held, Event.free_data _ _ :: tr => held && callbacks_locked held tr
  | held, _ :: tr => callbacks_locked held tr

/-- The entries that the replay loop of `dt_undo_do_undo` replays once it is
inside a group: the non-boundary entries whose kind matches the filter, up to
the first boundary entry whose kind matches the filter. -/
def replay_span (filter : Nat) : GList → GList
  | [] => []
  | x :: xs =>
    if type_matches x.obj.type filter then
      if x.obj.is_group then [] else x :: replay_span filter xs
    else replay_span filter xs

/-- The entries that `dt_undo_do_redo` moves once it is inside a group: the
entries whose kind matches the filter, up to and including the first boundary
entry whose kind matches the filter. -/
def group_redo_span (filter : Nat) : GList → GList
  | [] => []
  | x :: xs =>
    if type_matches x.obj.type filter then
      if x.obj.is_group then [x] else x :: group_redo_span filter xs
    else group_redo_span filter xs

/-- The entries left in `future` by `group_redo_span`, in list order. -/
def group_redo_rest (filter : Nat) : GList → GList
  | [] => []
  | x :: xs =>
    if type_matches x.obj.type filter then
      if x.obj.is_group then xs else group_redo_rest filter xs
    else x :: group_redo_rest filter xs

/-! ## Theorems: recording -/

@[simp] theorem releases_append (a b : List Event) :
    releases (a ++ b) = releases a ++ releases b := by
  induction a with
  | nil => rfl
  | cons e a ih => cases e <;> simp [releases, ih]

@[simp] theorem replays_append (a b : List Event) :
    replays (a ++ b) = replays a ++ replays b := by
  induction a with
  | nil => rfl
  | cons e a ih => cases e <;> simp [replays, ih]

theorem releases_free_undo_data (item : Item) :
    releases (_free_undo_data item) = release_of item := by
  unfold _free_undo_data release_of
  split <;> simp [releases]

theorem replays_free_undo_data (item : Item) : replays (_free_undo_data item) = [] := by
  unfold _free_undo_data
  split <;> simp [replays]

theorem releases_free_full (l : GList) :
    releases (g_list_free_full l) = l.flatMap release_of := by
  induction l with
  | nil => rfl
  | cons x xs ih => simp [g_list_free_full, releases_free_undo_data, ih]

theorem replays_free_full (l : GList) : replays (g_list_free_full l) = [] := by
  induction l with
  | nil => rfl
  | cons x xs ih => simp [g_list_free_full, replays_free_undo_data, ih]

/-- The branch `_undo_record` takes when the call is not coalesced. -/
theorem undo_record_fresh (self : dt_undo_t) (p user_data type data : Nat) (is_group : Bool)
    (tag undo free_data : Nat)
    (h : tag = 0 ∨ self.undo_list = [] ∨
      ∃ top rest, self.undo_list = top :: rest ∧ top.obj.tag ≠ tag) :
    _undo_record self p user_data type data is_group tag undo free_data =
      some ({ undo_list :=
                { addr := p
                  obj := { user_data := user_data, type := type, data := data,
                           is_group := is_group, tag := tag, undo := undo,
                           free_data := free_data } } :: self.undo_list
              redo_list := []
              group := self.group },
            [Event.lock] ++ g_list_free_full self.redo_list ++ [Event.unlock]) := by
  unfold _undo_record g_list_first g_list_prepend
  rcases h with h | h | ⟨top, rest, h, hne⟩
  · simp [h]
  · simp [h]
  · simp [h, hne]

/-- Claim C1. A `record` call that is not coalesced (the tag is 0, or `past` is
empty, or the most recent entry of `past` has another tag) succeeds; afterwards
`past` is the new non-boundary entry, with exactly the given owner context,
kind, payload, tag and callbacks, followed by the old `past`; `future` is empty;
the release calls made are exactly one per entry of the old `future` that has a
release callback, on that entry's payload and in list order; and no replay
callback is called. -/
theorem record_not_coalesced (self : dt_undo_t) (p user_data type data tag undo free_data : Nat)
    (h : tag = 0 ∨ self.undo_list = [] ∨
      ∃ top rest, self.undo_list = top :: rest ∧ top.obj.tag ≠ tag) :
    ∃ s tr, dt_undo_record self p user_data type data tag undo free_data = some (s, tr) ∧
      s.undo_list = real_item p user_data type data tag undo free_data :: self.undo_list ∧
      (real_item p user_data type data tag undo free_data).obj.is_group = false ∧
      s.redo_list = [] ∧
      s.group = self.group ∧
      tr = [Event.lock] ++ g_list_free_full self.redo_list ++ [Event.unlock] ∧
      releases tr = self.redo_list.flatMap release_of ∧
      replays tr = [] := by
  refine ⟨_, _, undo_record_fresh self p user_data type data false tag undo free_data h,
    rfl, rfl, rfl, rfl, rfl, ?_, ?_⟩
  · simp [releases, releases_free_full]
  · simp [replays, replays_free_full]

theorem record_not_coalesced_witness :
    (7 = 0 ∨ sample_state.undo_list = [] ∨
      ∃ top rest, sample_state.undo_list = top :: rest ∧ top.obj.tag ≠ 7) ∧
    ∃ s tr, dt_undo_record sample_state 4 12 1 22 7 32 42 = some (s, tr) ∧
      s.undo_list = [real_item 4 12 1 22 7 32 42, real_item 1 10 2 20 5 30 40] ∧
      s.redo_list = [] ∧
      releases tr = [(41, 21)] ∧
      replays tr = [] := by
  have h : 7 = 0 ∨ sample_state.undo_list = [] ∨
      ∃ top rest, sample_state.undo_list = top :: rest ∧ top.obj.tag ≠ 7 :=
    Or.inr (Or.inr ⟨real_item 1 10 2 20 5 30 40, [], rfl, by decide⟩)
  obtain ⟨s, tr, h1, h2, -, h3, -, -, h6, h7⟩ :=
    record_not_coalesced sample_state 4 12 1 22 7 32 42 h
  exact ⟨h, s, tr, h1, h2, h3, h6, h7⟩

/-- Claim C2. When the most recent entry of `past` has the nonzero tag of the
call and a release callback is given, `record` creates no entry: the manager
(so `past`, its most recent entry included, and `future`) is exactly as before,
and the only call made is one release call, on the new payload.  Hence of two
consecutive records with the same nonzero tag, the first of which is not
coalesced, only the first adds an entry. -/
theorem record_coalesced (self : dt_undo_t) (top : Item) (rest : GList)
    (p user_data type data tag undo free_data : Nat)
    (hpast : self.undo_list = top :: rest) (htag : top.obj.tag = tag) (hnz : tag ≠ 0)
    (hfn : free_data ≠ NULL) :
    dt_undo_record self p user_data type data tag undo free_data
        = some (self, [Event.free_data free_data data]) ∧
      releases [Event.free_data free_data data] = [(free_data, data)] ∧
      replays [Event.free_data free_data data] = [] ∧
      ∀ (s0 : dt_undo_t) (p0 user_data0 type0 data0 undo0 free_data0 : Nat),
        (s0.undo_list = [] ∨ ∃ t r, s0.undo_list = t :: r ∧ t.obj.tag ≠ tag) →
        ∃ s1 tr1,
          dt_undo_record s0 p0 user_data0 type0 data0 tag undo0 free_data0 = some (s1, tr1) ∧
          dt_undo_record s1 p user_data type data tag undo free_data
            = some (s1, [Event.free_data free_data data]) ∧
          s1.undo_list
            = real_item p0 user_data0 type0 data0 tag undo0 free_data0 :: s0.undo_list := by
  have key : ∀ (s : dt_undo_t) (t : Item) (r : GList), s.undo_list = t :: r → t.obj.tag = tag →
      dt_undo_record s p user_data type data tag undo free_data
        = some (s, [Event.free_data free_data data]) := by
    intro s t r hs ht
    unfold dt_undo_record _undo_record g_list_first
    simp [hs, ht, hnz, hfn]
  refine ⟨key self top rest hpast htag, rfl, rfl, ?_⟩
  intro s0 p0 user_data0 type0 data0 undo0 free_data0 h0
  refine ⟨_, _, undo_record_fresh s0 p0 user_data0 type0 data0 false tag undo0 free_data0
    (Or.inr h0), ?_, rfl⟩
  exact key _ _ _ rfl rfl

theorem record_coalesced_witness :
    dt_undo_record sample_state 4 12 1 22 5 32 42
      = some (sample_state, [Event.free_data 42 22]) :=
  (record_coalesced sample_state (real_item 1 10 2 20 5 30 40) [] 4 12 1 22 5 32 42
    rfl rfl (by decide) (by decide)).1

theorem not_coalesces_iff (self : dt_undo_t) (tag : Nat) :
    coalesces self tag = false ↔
      (tag = 0 ∨ self.undo_list = [] ∨
        ∃ top rest, self.undo_list = top :: rest ∧ top.obj.tag ≠ tag) := by
  unfold coalesces
  cases h : self.undo_list with
  | nil => simp
  | cons t r => simp; tauto

/-- A run of record calls none of which is coalesced. -/
theorem record_all_fresh (rs : List record_args) :
    ∀ self : dt_undo_t, none_coalesced self rs = true →
      ∃ s tr, dt_undo_record_all self rs = some (s, tr) ∧
        s.undo_list = (rs.reverse.map record_args.item) ++ self.undo_list ∧
        s.group = self.group ∧
        (rs ≠ [] → s.redo_list = []) ∧
        (self.redo_list = [] → s.redo_list = []) := by
  induction rs with
  | nil =>
    intro self _
    exact ⟨self, [], rfl, by simp, rfl, by simp, fun h => h⟩
  | cons a rest ih =>
    intro self h
    simp only [none_coalesced, Bool.and_eq_true, Bool.not_eq_true'] at h
    obtain ⟨hc, hrest⟩ := h
    have hrec := undo_record_fresh self a.p a.user_data a.type a.data false a.tag a.undo
      a.free_data ((not_coalesces_iff self a.tag).1 hc)
    have hrec2 : dt_undo_record self a.p a.user_data a.type a.data a.tag a.undo a.free_data
        = some _ := hrec
    rw [hrec2] at hrest
    obtain ⟨s, tr, hs, hu, hg, -, hr⟩ := ih _ hrest
    refine ⟨s, ([Event.lock] ++ g_list_free_full self.redo_list ++ [Event.unlock]) ++ tr,
      ?_, ?_, ?_, ?_, ?_⟩
    · simp only [dt_undo_record_all, hrec2, hs]
    · rw [hu]
      simp [record_args.item, real_item]
    · rw [hg]
    · intro _
      exact hr rfl
    · intro _
      exact hr rfl

/-- Claim C3. From any manager state with `past = P`: `startGroup(k)`, then
record calls `r_1 .. r_n` (any `n`, 0 included) none of which is coalesced,
then `endGroup()` all succeed and leave `past = E, r_n, ..., r_1, S` followed by
`P` unchanged, where `S` and `E` are boundary entries of kind `k` without owner
context, payload, replay callback, release callback and with tag 0; `future` is
empty and the group-in-progress marker is 0. -/
theorem group_layout (self : dt_undo_t) (k pS pE : Nat) (rs : List record_args)
    (h : none_coalesced
      { undo_list := group_item pS k :: self.undo_list, redo_list := [], group := k } rs = true) :
    ∃ s1 tr1 s2 tr2 s3 tr3,
      dt_undo_start_group self pS k = some (s1, tr1) ∧
      s1 = { undo_list := group_item pS k :: self.undo_list, redo_list := [], group := k } ∧
      dt_undo_record_all s1 rs = some (s2, tr2) ∧
      dt_undo_end_group s2 pE = some (s3, tr3) ∧
      s3.undo_list
        = group_item pE k :: (rs.reverse.map record_args.item)
            ++ group_item pS k :: self.undo_list ∧
      s3.redo_list = [] ∧
      s3.group = 0 ∧
      (∀ p, (group_item p k).obj
        = { user_data := NULL, type := k, data := NULL, is_group := true, tag := 0,
            undo := NULL, free_data := NULL }) := by
  have hstart : dt_undo_start_group self pS k
      = some ({ undo_list := group_item pS k :: self.undo_list, redo_list := [], group := k },
          [Event.lock] ++ g_list_free_full self.redo_list ++ [Event.unlock]) := by
    unfold dt_undo_start_group
    exact undo_record_fresh _ pS NULL k NULL true 0 NULL NULL (Or.inl rfl)
  obtain ⟨s2, tr2, hs2, hu2, hg2, -, hr2⟩ := record_all_fresh rs _ h
  have hend := undo_record_fresh s2 pE NULL s2.group NULL true 0 NULL NULL (Or.inl rfl)
  refine ⟨_, _, s2, tr2,
    { undo_list := group_item pE s2.group :: s2.undo_list, redo_list := [], group := 0 },
    [Event.lock] ++ g_list_free_full s2.redo_list ++ [Event.unlock],
    hstart, rfl, hs2, ?_, ?_, rfl, rfl, ?_⟩
  · unfold dt_undo_end_group
    rw [hend]
    rfl
  · simp only [hu2, hg2]
    rfl
  · intro p
    rfl

theorem group_layout_witness :
    none_coalesced
      { undo_list := group_item 1 4 :: [real_item 9 1 1 1 3 1 1], redo_list := [], group := 4 }
      [⟨2, 10, 2, 20, 3, 30, 40⟩, ⟨3, 11, 8, 21, 0, 31, 41⟩] = true ∧
    ∃ s1 tr1 s2 tr2 s3 tr3,
      dt_undo_start_group
        { undo_list := [real_item 9 1 1 1 3 1 1], redo_list := [group_item 8 1], group := 0 } 1 4
          = some (s1, tr1) ∧
      dt_undo_record_all s1 [⟨2, 10, 2, 20, 3, 30, 40⟩, ⟨3, 11, 8, 21, 0, 31, 41⟩]
        = some (s2, tr2) ∧
      dt_undo_end_group s2 5 = some (s3, tr3) ∧
      s3.undo_list
        = [group_item 5 4, real_item 3 11 8 21 0 31 41, real_item 2 10 2 20 3 30 40,
            group_item 1 4, real_item 9 1 1 1 3 1 1] ∧
      s3.redo_list = [] ∧
      s3.group = 0 := by
  have h : none_coalesced
      { undo_list := group_item 1 4 :: [real_item 9 1 1 1 3 1 1], redo_list := [], group := 4 }
      [⟨2, 10, 2, 20, 3, 30, 40⟩, ⟨3, 11, 8, 21, 0, 31, 41⟩] = true := by decide
  obtain ⟨s1, tr1, s2, tr2, s3, tr3, h1, -, h2, h3, h4, h5, h6, -⟩ :=
    group_layout
      { undo_list := [real_item 9 1 1 1 3 1 1], redo_list := [group_item 8 1], group := 0 }
      4 1 5 [⟨2, 10, 2, 20, 3, 30, 40⟩, ⟨3, 11, 8, 21, 0, 31, 41⟩] h
  exact ⟨h, s1, tr1, s2, tr2, s3, tr3, h1, h2, h3, h4, h5, h6⟩

/-! ## Theorems: undo and redo -/

theorem g_list_remove_head (x : Item) (rest : GList) : g_list_remove (x :: rest) x = rest := by
  simp [g_list_remove]

theorem int_wrap_succ (c : Int) (h0 : 0 ≤ c) (h1 : c + 1 < 2 ^ 31) : int_wrap (c + 1) = c + 1 := by
  unfold int_wrap
  omega

theorem callbacks_ok_cons (x : Item) (l : GList) :
    callbacks_ok (x :: l) = true ↔
      (x.obj.is_group = false → x.obj.undo ≠ NULL) ∧ callbacks_ok l = true := by
  unfold callbacks_ok
  cases hx : x.obj.is_group <;> simp [hx]

theorem callbacks_ok_append (a b : GList) :
    callbacks_ok (a ++ b) = true ↔ callbacks_ok a = true ∧ callbacks_ok b = true := by
  unfold callbacks_ok
  simp [List.all_append]

/-- The replay loop of `dt_undo_do_undo` does not crash when every non-boundary
entry it may reach has a replay callback. -/
theorem replay_loop_total (f : Nat) (l : GList) :
    callbacks_ok l = true → ∀ (g : Bool) (c : Int),
      ∃ tr, dt_undo_do_undo.replay_loop f l g c = some tr := by
  induction l with
  | nil =>
    intro _ g c
    exact ⟨[], rfl⟩
  | cons x xs ih =>
    intro h g c
    obtain ⟨hx, hxs⟩ := (callbacks_ok_cons x xs).1 h
    obtain ⟨t1, ht1⟩ := ih hxs true (int_wrap (c + 1))
    obtain ⟨t2, ht2⟩ := ih hxs false (int_wrap (c + 1))
    unfold dt_undo_do_undo.replay_loop
    by_cases hm : type_matches x.obj.type f = true
    · cases hg : x.obj.is_group
      · have hu : x.obj.undo ≠ NULL := hx hg
        cases g <;> simp [hm, call_undo, hu, ht1]
      · rcases eq_or_ne c 1 with rfl | hc1
        · norm_num at ht1
          cases g <;> simp [hm, ht1]
        · cases g <;> by_cases hc2 : 1 < c <;> simp [hm, hc1, hc2, ht1, ht2]
    · simp only [hm]
      exact ih hxs g c

/-- The group loop of `dt_undo_do_undo` started at the head of `past`: it moves
the entries up to and including the first boundary entry. -/
theorem group_loop_head (xs : GList) :
    ∀ (self : dt_undo_t) (S : Item) (P : GList), self.undo_list = xs ++ S :: P →
      (∀ x ∈ xs, x.obj.is_group = false) → S.obj.is_group = true →
      dt_undo_do_undo.group_loop (xs ++ S :: P) self
        = { undo_list := P, redo_list := S :: xs.reverse ++ self.redo_list,
            group := self.group } := by
  induction xs with
  | nil =>
    intro self S P hp _ hS
    simp only [List.nil_append] at hp ⊢
    simp [dt_undo_do_undo.group_loop, hp, hS, g_list_remove, g_list_prepend]
  | cons x xs ih =>
    intro self S P hp hx hS
    have hxg : x.obj.is_group = false := hx x (List.mem_cons_self _ _)
    simp only [List.cons_append] at hp ⊢
    simp only [dt_undo_do_undo.group_loop, hp, g_list_remove_head, g_list_prepend, hxg]
    rw [ih _ S P rfl (fun y hy => hx y (List.mem_cons_of_mem _ hy)) hS]
    simp

/-- One `doUndo(f)` on a `past` that starts with a whole group whose closing
boundary entry matches the filter. -/
theorem undo_group_head (self : dt_undo_t) (f : Nat) (E S : Item) (xs P : GList)
    (hpast : self.undo_list = E :: xs ++ S :: P)
    (hE : E.obj.is_group = true) (hS : S.obj.is_group = true)
    (hx : ∀ x ∈ xs, x.obj.is_group = false)
    (hm : type_matches E.obj.type f = true)
    (hP : callbacks_ok P = true) :
    ∃ tr, dt_undo_do_undo self f
      = some ({ undo_list := P, redo_list := S :: xs.reverse ++ E :: self.redo_list,
                group := self.group }, tr) := by
  have hmove : dt_undo_do_undo.move_loop f self.undo_list self
      = { undo_list := P, redo_list := S :: xs.reverse ++ E :: self.redo_list,
          group := self.group } := by
    have hpast1 : self.undo_list = E :: (xs ++ S :: P) := hpast
    have hg := group_loop_head xs
      { undo_list := xs ++ S :: P, redo_list := E :: self.redo_list, group := self.group }
      S P rfl hx hS
    rw [hpast1]
    simp only [dt_undo_do_undo.move_loop, hm, if_true, hE, hpast1, g_list_remove_head,
      g_list_prepend]
    rw [hg]
  obtain ⟨tr, htr⟩ := replay_loop_total f P hP false 1
  refine ⟨[Event.lock] ++ tr ++ [Event.unlock], ?_⟩
  unfold dt_undo_do_undo g_list_first
  simp only [hmove, htr]

theorem replays_map_undo_event (l : GList) : replays (l.map undo_event) = l.map replay_of := by
  induction l with
  | nil => rfl
  | cons x xs ih => simp [undo_event, replays, replay_of, ih]

/-- The loop of `dt_undo_do_redo` once it is inside a group, started at the
head of `future`: it replays and moves the entries up to the next boundary
entry, moves that one too and stops. -/
theorem redo_loop_in_group (f : Nat) (ys : GList) :
    ∀ (self : dt_undo_t) (E : Item) (F : GList) (c : Int),
      self.redo_list = ys ++ E :: F →
      (∀ y ∈ ys, y.obj.is_group = false ∧ type_matches y.obj.type f = true ∧
        y.obj.undo ≠ NULL) →
      E.obj.is_group = true → type_matches E.obj.type f = true →
      1 < c → c + ys.length < 2 ^ 31 →
      dt_undo_do_redo.loop f (ys ++ E :: F) self true c
        = some ({ undo_list := E :: ys.reverse ++ self.undo_list, redo_list := F,
                  group := self.group }, ys.map undo_event) := by
  induction ys with
  | nil =>
    intro self E F c hr _ hE hmE hc _
    simp only [List.nil_append] at hr ⊢
    simp [dt_undo_do_redo.loop, hmE, hE, hr, g_list_remove_head, g_list_prepend, hc]
  | cons y ys ih =>
    intro self E F c hr hy hE hmE hc hlen
    obtain ⟨hyg, hym, hyu⟩ := hy y (List.mem_cons_self _ _)
    have hr1 : self.redo_list = y :: (ys ++ E :: F) := hr
    have hw : int_wrap (c + 1) = c + 1 := by
      apply int_wrap_succ
      · omega
      · simp only [List.length_cons, Nat.cast_add, Nat.cast_one] at hlen
        omega
    have hrec := ih
      { undo_list := y :: self.undo_list, redo_list := ys ++ E :: F, group := self.group }
      E F (c + 1) rfl (fun z hz => hy z (List.mem_cons_of_mem _ hz)) hE hmE (by omega)
      (by
        simp only [List.length_cons, Nat.cast_add, Nat.cast_one] at hlen
        omega)
    show dt_undo_do_redo.loop f (y :: (ys ++ E :: F)) self true c = _
    simp [dt_undo_do_redo.loop, hym, hyg, call_undo, hyu, hr1, g_list_remove_head,
      g_list_prepend, hw, hrec, undo_event]

/-- One `doRedo(f)` on a `future` that starts with a whole group all of whose
entries match the filter. -/
theorem redo_group_head (self : dt_undo_t) (f : Nat) (S E : Item) (ys F : GList)
    (hfut : self.redo_list = S :: ys ++ E :: F)
    (hS : S.obj.is_group = true) (hE : E.obj.is_group = true)
    (hmS : type_matches S.obj.type f = true) (hmE : type_matches E.obj.type f = true)
    (hy : ∀ y ∈ ys, y.obj.is_group = false ∧ type_matches y.obj.type f = true ∧
      y.obj.undo ≠ NULL)
    (hlen : ys.length + 2 < 2 ^ 31) :
    dt_undo_do_redo self f
      = some ({ undo_list := E :: ys.reverse ++ S :: self.undo_list, redo_list := F,
                group := self.group },
              [Event.lock] ++ ys.map undo_event ++ [Event.unlock]) := by
  have hfut1 : self.redo_list = S :: (ys ++ E :: F) := hfut
  have hw : int_wrap 2 = 2 := by
    unfold int_wrap
    norm_num
  have hloop := redo_loop_in_group f ys
    { undo_list := S :: self.undo_list, redo_list := ys ++ E :: F, group := self.group }
    E F 2 rfl hy hE hmE (by norm_num) (by
      have : (ys.length : Int) + 2 < 2 ^ 31 := by exact_mod_cast hlen
      omega)
  unfold dt_undo_do_redo g_list_first
  rw [hfut1]
  simp [dt_undo_do_redo.loop, hmS, hS, hfut1, g_list_remove_head, g_list_prepend, hw, hloop]

/-- One `doUndo(f)` when the most recent entry of `past` is a non-boundary
entry that matches the filter. -/
theorem undo_plain_head (self : dt_undo_t) (f : Nat) (e : Item) (P : GList)
    (hpast : self.undo_list = e :: P) (he : e.obj.is_group = false)
    (hm : type_matches e.obj.type f = true) (hP : callbacks_ok P = true) :
    ∃ tr, dt_undo_do_undo self f
      = some ({ undo_list := P, redo_list := e :: self.redo_list, group := self.group },
          tr) := by
  obtain ⟨tr, htr⟩ := replay_loop_total f P hP false 1
  refine ⟨[Event.lock] ++ tr ++ [Event.unlock], ?_⟩
  unfold dt_undo_do_undo g_list_first
  simp [hpast, dt_undo_do_undo.move_loop, hm, he, g_list_remove_head, g_list_prepend, htr]

/-- One `doRedo(f)` when the first entry of `future` is a non-boundary entry
that matches the filter and has a replay callback. -/
theorem redo_plain_head (self : dt_undo_t) (f : Nat) (e : Item) (F : GList)
    (hfut : self.redo_list = e :: F) (he : e.obj.is_group = false)
    (hm : type_matches e.obj.type f = true) (hu : e.obj.undo ≠ NULL) :
    dt_undo_do_redo self f
      = some ({ undo_list := e :: self.undo_list, redo_list := F, group := self.group },
          [Event.lock, undo_event e, Event.unlock]) := by
  unfold dt_undo_do_redo g_list_first
  simp [hfut, dt_undo_do_redo.loop, hm, he, call_undo, hu, g_list_remove_head, g_list_prepend,
    undo_event]

/-- As many `doUndo(f)` calls as there are entries in a run of matching
non-boundary entries at the head of `past`. -/
theorem undo_run (f : Nat) (es : GList) :
    ∀ (self : dt_undo_t) (P : GList), self.undo_list = es ++ P →
      (∀ e ∈ es, e.obj.is_group = false ∧ type_matches e.obj.type f = true ∧
        e.obj.undo ≠ NULL) →
      callbacks_ok P = true →
      ∃ tr, repeat_op (fun s => dt_undo_do_undo s f) es.length self
        = some ({ undo_list := P, redo_list := es.reverse ++ self.redo_list,
                  group := self.group }, tr) := by
  induction es with
  | nil =>
    intro self P hp _ _
    refine ⟨[], ?_⟩
    simp only [List.nil_append] at hp
    simp [repeat_op, ← hp]
  | cons e es ih =>
    intro self P hp he hP
    obtain ⟨heg, hem, -⟩ := he e (List.mem_cons_self _ _)
    have hrest : callbacks_ok (es ++ P) = true := by
      rw [callbacks_ok_append]
      refine ⟨?_, hP⟩
      unfold callbacks_ok
      rw [List.all_eq_true]
      intro x hx
      obtain ⟨hxg, -, hxu⟩ := he x (List.mem_cons_of_mem _ hx)
      simp [hxg, hxu]
    obtain ⟨tr1, h1⟩ := undo_plain_head self f e (es ++ P) hp heg hem hrest
    obtain ⟨tr2, h2⟩ := ih
      { undo_list := es ++ P, redo_list := e :: self.redo_list, group := self.group } P rfl
      (fun x hx => he x (List.mem_cons_of_mem _ hx)) hP
    refine ⟨tr1 ++ tr2, ?_⟩
    simp [repeat_op, h1, h2]

/-- As many `doRedo(f)` calls as there are entries in a run of matching
non-boundary entries at the head of `future`. -/
theorem redo_run (f : Nat) (es : GList) :
    ∀ (self : dt_undo_t) (F : GList), self.redo_list = es ++ F →
      (∀ e ∈ es, e.obj.is_group = false ∧ type_matches e.obj.type f = true ∧
        e.obj.undo ≠ NULL) →
      ∃ tr, repeat_op (fun s => dt_undo_do_redo s f) es.length self
          = some ({ undo_list := es.reverse ++ self.undo_list, redo_list := F,
                    group := self.group }, tr) ∧
        replays tr = es.map replay_of := by
  induction es with
  | nil =>
    intro self F hf _
    refine ⟨[], ?_, rfl⟩
    simp only [List.nil_append] at hf
    simp [repeat_op, ← hf]
  | cons e es ih =>
    intro self F hf he
    obtain ⟨heg, hem, heu⟩ := he e (List.mem_cons_self _ _)
    have h1 := redo_plain_head self f e (es ++ F) hf heg hem heu
    obtain ⟨tr2, h2, hr2⟩ := ih
      { undo_list := e :: self.undo_list, redo_list := es ++ F, group := self.group } F rfl
      (fun x hx => he x (List.mem_cons_of_mem _ hx))
    refine ⟨[Event.lock, undo_event e, Event.unlock] ++ tr2, ?_, ?_⟩
    · simp [repeat_op, h1, h2]
    · rw [replays_append, hr2]
      simp [replays, undo_event, replay_of]

/-- One `doUndo(f)` when the two most recent entries of `past` are non-boundary
entries that match the filter: the first is moved, the second is replayed. -/
theorem undo_plain_then_plain (self : dt_undo_t) (f : Nat) (e q : Item) (P : GList)
    (hpast : self.undo_list = e :: q :: P) (he : e.obj.is_group = false)
    (hm : type_matches e.obj.type f = true) (hq : q.obj.is_group = false)
    (hmq : type_matches q.obj.type f = true) (hu : q.obj.undo ≠ NULL) :
    dt_undo_do_undo self f
      = some ({ undo_list := q :: P, redo_list := e :: self.redo_list, group := self.group },
          [Event.lock, undo_event q, Event.unlock]) := by
  unfold dt_undo_do_undo g_list_first
  simp [hpast, dt_undo_do_undo.move_loop, hm, he, g_list_remove_head, g_list_prepend,
    dt_undo_do_undo.replay_loop, hq, hmq, call_undo, hu, undo_event]

theorem move_loop_no_match (f : Nat) (l : GList) (self : dt_undo_t)
    (h : ∀ x ∈ l, type_matches x.obj.type f = false) :
    dt_undo_do_undo.move_loop f l self = self := by
  induction l with
  | nil => rfl
  | cons x xs ih =>
    simp only [dt_undo_do_undo.move_loop, h x (List.mem_cons_self _ _)]
    exact ih (fun y hy => h y (List.mem_cons_of_mem _ hy))

theorem replay_loop_no_match (f : Nat) (l : GList) (g : Bool) (c : Int)
    (h : ∀ x ∈ l, type_matches x.obj.type f = false) :
    dt_undo_do_undo.replay_loop f l g c = some [] := by
  induction l with
  | nil => rfl
  | cons x xs ih =>
    simp only [dt_undo_do_undo.replay_loop, h x (List.mem_cons_self _ _)]
    exact ih (fun y hy => h y (List.mem_cons_of_mem _ hy))

theorem redo_loop_no_match (f : Nat) (l : GList) (self : dt_undo_t) (g : Bool) (c : Int)
    (h : ∀ x ∈ l, type_matches x.obj.type f = false) :
    dt_undo_do_redo.loop f l self g c = some (self, []) := by
  induction l with
  | nil => rfl
  | cons x xs ih =>
    simp only [dt_undo_do_redo.loop, h x (List.mem_cons_self _ _)]
    exact ih (fun y hy => h y (List.mem_cons_of_mem _ hy))

/-- Claim C4. Group atomicity of undo: when `past` is `E, x_n, ..., x_1, S`
followed by `P` (`E`, `S` boundary entries, every `x_i` a non-boundary entry,
any `n`), `future` is `F` and the kind of `E` matches the filter, one
`doUndo(f)` returns with `past = P` and `future = S, x_1, ..., x_n, E` followed
by `F`, whatever the kinds of the `x_i` and of `S` (the replay callbacks of the
non-boundary entries of `P` being present, so that the replay phase can run). -/
theorem undo_group_atomic (self : dt_undo_t) (f : Nat) (E S : Item) (xs P F : GList)
    (hpast : self.undo_list = E :: xs ++ S :: P) (hfut : self.redo_list = F)
    (hE : E.obj.is_group = true) (hS : S.obj.is_group = true)
    (hx : ∀ x ∈ xs, x.obj.is_group = false)
    (hm : type_matches E.obj.type f = true)
    (hP : callbacks_ok P = true) :
    ∃ s tr, dt_undo_do_undo self f = some (s, tr) ∧
      s.undo_list = P ∧
      s.redo_list = S :: xs.reverse ++ E :: F ∧
      s.group = self.group := by
  obtain ⟨tr, htr⟩ := undo_group_head self f E S xs P hpast hE hS hx hm hP
  rw [hfut] at htr
  exact ⟨_, tr, htr, rfl, rfl, rfl⟩

theorem undo_group_atomic_witness :
    ∃ s tr,
      dt_undo_do_undo
        { undo_list := [group_item 5 1, real_item 4 0 2 7 0 9 9, real_item 3 0 4 8 0 9 9,
            group_item 2 8, real_item 1 0 1 6 0 9 9],
          redo_list := [real_item 6 0 1 5 0 9 9], group := 0 } 1 = some (s, tr) ∧
      s.undo_list = [real_item 1 0 1 6 0 9 9] ∧
      s.redo_list = [group_item 2 8, real_item 3 0 4 8 0 9 9, real_item 4 0 2 7 0 9 9,
        group_item 5 1, real_item 6 0 1 5 0 9 9] ∧
      s.group = 0 :=
  undo_group_atomic
    { undo_list := [group_item 5 1, real_item 4 0 2 7 0 9 9, real_item 3 0 4 8 0 9 9,
        group_item 2 8, real_item 1 0 1 6 0 9 9],
      redo_list := [real_item 6 0 1 5 0 9 9], group := 0 } 1
    (group_item 5 1) (group_item 2 8) [real_item 4 0 2 7 0 9 9, real_item 3 0 4 8 0 9 9]
    [real_item 1 0 1 6 0 9 9] [real_item 6 0 1 5 0 9 9]
    rfl rfl rfl rfl (by decide) (by decide) (by decide)

/-- Claim C5. Group undo/redo round trip: when `past` is `E, x_n, ..., x_1, S`
followed by `P` (`E`, `S` boundary entries, the `x_i` non-boundary entries with
their replay callbacks), `future` is `F` and the filter matches the kinds of
`E`, of `S` and of every `x_i`, then `doUndo(f)` followed by `doRedo(f)` both
return, and give back exactly the original manager state (`past`, `future = F`
and marker); the `doRedo` call makes exactly the replay calls of `x_1, ..., x_n`,
in that order, each once, and none on a boundary entry or on any other entry.
(The group has fewer than `2 ^ 31 - 2` entries, the range of the `int` counter;
the non-boundary entries of `P` have replay callbacks.) -/
theorem group_undo_redo_round_trip (self : dt_undo_t) (f : Nat) (E S : Item) (xs P F : GList)
    (hpast : self.undo_list = E :: xs ++ S :: P) (hfut : self.redo_list = F)
    (hE : E.obj.is_group = true) (hS : S.obj.is_group = true)
    (hx : ∀ x ∈ xs, x.obj.is_group = false ∧ type_matches x.obj.type f = true ∧
      x.obj.undo ≠ NULL)
    (hmE : type_matches E.obj.type f = true) (hmS : type_matches S.obj.type f = true)
    (hP : callbacks_ok P = true)
    (hlen : xs.length + 2 < 2 ^ 31) :
    ∃ s1 tr1 s2 tr2,
      dt_undo_do_undo self f = some (s1, tr1) ∧
      dt_undo_do_redo s1 f = some (s2, tr2) ∧
      s2 = self ∧
      s2.undo_list = E :: xs ++ S :: P ∧
      s2.redo_list = F ∧
      replays tr2 = xs.reverse.map replay_of := by
  obtain ⟨tr1, h1⟩ := undo_group_head self f E S xs P hpast hE hS (fun x h => (hx x h).1) hmE hP
  have h2 := redo_group_head
    { undo_list := P, redo_list := S :: xs.reverse ++ E :: self.redo_list, group := self.group }
    f S E xs.reverse self.redo_list rfl hS hE hmS hmE
    (fun y h => hx y (List.mem_reverse.1 h)) (by simpa using hlen)
  have hself : dt_undo_t.mk (E :: xs.reverse.reverse ++ S :: P) self.redo_list self.group
      = self := by
    rw [List.reverse_reverse, ← hpast]
  refine ⟨_, tr1, _, _, h1, h2, hself, ?_, ?_, ?_⟩
  · simp
  · exact hfut
  · rw [replays_append, replays_append, replays_map_undo_event]
    simp [replays]

theorem group_undo_redo_round_trip_witness :
    ∃ s1 tr1 s2 tr2,
      dt_undo_do_undo
        { undo_list := [group_item 5 1, real_item 4 0 3 7 0 9 9, real_item 3 0 5 8 0 9 9,
            group_item 2 1, real_item 1 0 1 6 0 9 9],
          redo_list := [real_item 6 0 1 5 0 9 9], group := 0 } 1 = some (s1, tr1) ∧
      dt_undo_do_redo s1 1 = some (s2, tr2) ∧
      s2 = { undo_list := [group_item 5 1, real_item 4 0 3 7 0 9 9, real_item 3 0 5 8 0 9 9,
               group_item 2 1, real_item 1 0 1 6 0 9 9],
             redo_list := [real_item 6 0 1 5 0 9 9], group := 0 } ∧
      replays tr2 = [(9, 0, 5, 8), (9, 0, 3, 7)] := by
  obtain ⟨s1, tr1, s2, tr2, h1, h2, h3, -, -, h6⟩ :=
    group_undo_redo_round_trip
      { undo_list := [group_item 5 1, real_item 4 0 3 7 0 9 9, real_item 3 0 5 8 0 9 9,
          group_item 2 1, real_item 1 0 1 6 0 9 9],
        redo_list := [real_item 6 0 1 5 0 9 9], group := 0 } 1
      (group_item 5 1) (group_item 2 1) [real_item 4 0 3 7 0 9 9, real_item 3 0 5 8 0 9 9]
      [real_item 1 0 1 6 0 9 9] [real_item 6 0 1 5 0 9 9]
      rfl rfl rfl rfl (by decide) (by decide) (by decide) (by decide) (by decide)
  exact ⟨s1, tr1, s2, tr2, h1, h2, h3, h6⟩

/-- Claim C6. Plain undo/redo round trip: from any state (whose non-boundary
`past` entries have replay callbacks), `N >= 1` record calls `e_1 .. e_N` that
are not coalesced, have kinds matching the filter and carry replay callbacks
leave `past = e_N, ..., e_1` followed by the earlier `past`, and `future` empty;
`N` calls of `doUndo(f)` then return with the earlier `past` and
`future = e_1, ..., e_N`; `N` calls of `doRedo(f)` then return with `past` as it
was right after the records and `future` empty, and make exactly `N` replay
calls: on `e_1, e_2, ..., e_N`, in recording order. -/
theorem plain_undo_redo_round_trip (self : dt_undo_t) (f : Nat) (rs : List record_args)
    (hN : 1 ≤ rs.length)
    (hnc : none_coalesced self rs = true)
    (hm : ∀ r ∈ rs, type_matches r.type f = true)
    (hcb : ∀ r ∈ rs, r.undo ≠ NULL)
    (hP : callbacks_ok self.undo_list = true) :
    ∃ s1 tr1 s2 tr2 s3 tr3,
      dt_undo_record_all self rs = some (s1, tr1) ∧
      s1.undo_list = rs.reverse.map record_args.item ++ self.undo_list ∧
      s1.redo_list = [] ∧
      repeat_op (fun s => dt_undo_do_undo s f) rs.length s1 = some (s2, tr2) ∧
      s2.undo_list = self.undo_list ∧
      s2.redo_list = rs.map record_args.item ∧
      repeat_op (fun s => dt_undo_do_redo s f) rs.length s2 = some (s3, tr3) ∧
      s3.undo_list = s1.undo_list ∧
      s3.redo_list = [] ∧
      replays tr3 = rs.map (fun r => replay_of r.item) ∧
      (replays tr3).length = rs.length := by
  obtain ⟨s1, tr1, h1, hu1, hg1, hr1, -⟩ := record_all_fresh rs self hnc
  have hne : rs ≠ [] := by
    intro h
    rw [h] at hN
    simp at hN
  have hr1 := hr1 hne
  have hitems : ∀ (l : List record_args), (∀ r ∈ l, r ∈ rs) →
      ∀ e ∈ l.map record_args.item, e.obj.is_group = false ∧
        type_matches e.obj.type f = true ∧ e.obj.undo ≠ NULL := by
    intro l hl e he
    obtain ⟨r, hr, rfl⟩ := List.mem_map.1 he
    exact ⟨rfl, hm r (hl r hr), hcb r (hl r hr)⟩
  obtain ⟨tr2, h2⟩ := undo_run f (rs.reverse.map record_args.item) s1 self.undo_list hu1
    (hitems rs.reverse (fun r hr => List.mem_reverse.1 hr)) hP
  have hlen : (rs.reverse.map record_args.item).length = rs.length := by simp
  rw [hlen, hr1] at h2
  have hfut : (rs.reverse.map record_args.item).reverse ++ ([] : GList)
      = rs.map record_args.item := by
    simp [List.map_reverse]
  rw [hfut] at h2
  obtain ⟨tr3, h3, hrep⟩ := redo_run f (rs.map record_args.item)
    { undo_list := self.undo_list, redo_list := rs.map record_args.item, group := s1.group } []
    (by simp) (hitems rs (fun r hr => hr))
  have hlen3 : (rs.map record_args.item).length = rs.length := by simp
  rw [hlen3] at h3
  refine ⟨s1, tr1, _, tr2, _, tr3, h1, hu1, hr1, h2, rfl, rfl, h3, ?_, rfl, ?_, ?_⟩
  · simp [hu1, List.map_reverse]
  · simp [hrep]
  · simp [hrep]

theorem plain_undo_redo_round_trip_witness :
    ∃ s1 tr1 s2 tr2 s3 tr3,
      dt_undo_record_all { undo_list := [real_item 1 0 1 6 0 9 9], redo_list := [], group := 0 }
        [⟨2, 20, 1, 7, 0, 8, 9⟩, ⟨3, 30, 2, 6, 5, 7, 9⟩] = some (s1, tr1) ∧
      s1.undo_list
        = [real_item 3 30 2 6 5 7 9, real_item 2 20 1 7 0 8 9, real_item 1 0 1 6 0 9 9] ∧
      s1.redo_list = [] ∧
      repeat_op (fun s => dt_undo_do_undo s 3) 2 s1 = some (s2, tr2) ∧
      s2.undo_list = [real_item 1 0 1 6 0 9 9] ∧
      s2.redo_list = [real_item 2 20 1 7 0 8 9, real_item 3 30 2 6 5 7 9] ∧
      repeat_op (fun s => dt_undo_do_redo s 3) 2 s2 = some (s3, tr3) ∧
      s3.undo_list = s1.undo_list ∧
      s3.redo_list = [] ∧
      replays tr3 = [(8, 20, 1, 7), (7, 30, 2, 6)] ∧
      (replays tr3).length = 2 :=
  plain_undo_redo_round_trip
    { undo_list := [real_item 1 0 1 6 0 9 9], redo_list := [], group := 0 } 3
    [⟨2, 20, 1, 7, 0, 8, 9⟩, ⟨3, 30, 2, 6, 5, 7, 9⟩]
    (by decide) (by decide) (by decide) (by decide) (by decide)

/-- Claim C7, as the code has it. On a freshly initialised manager, after three
record calls `A`, `B`, `C` that are not coalesced and whose kinds match the
filter (`A` and `B` with replay callbacks), the first `doUndo` makes exactly one
replay call, on the entry of `B`; the second `doUndo` makes exactly one, on the
entry of `A`; and the `doRedo` that follows makes exactly one, on the entry of
`B`, the entry undone last. -/
theorem abc_undo_undo_redo (a b c : record_args) (f : Nat)
    (hnc : none_coalesced dt_undo_init [a, b, c] = true)
    (ha : type_matches a.type f = true) (hb : type_matches b.type f = true)
    (hc : type_matches c.type f = true)
    (hua : a.undo ≠ NULL) (hub : b.undo ≠ NULL) :
    record3_undo2_redo1 a b c f
      = some ([replay_of b.item], [replay_of a.item], [replay_of b.item]) := by
  obtain ⟨s3, tr3, h3, hu3, hg3, hr3, -⟩ := record_all_fresh [a, b, c] dt_undo_init hnc
  have hs3 : s3 = { undo_list := [c.item, b.item, a.item], redo_list := [], group := 0 } := by
    cases s3
    simp only [dt_undo_t.mk.injEq]
    exact ⟨by simpa [dt_undo_init] using hu3, hr3 (by simp), by simpa [dt_undo_init] using hg3⟩
  subst hs3
  have h4 := undo_plain_then_plain
    { undo_list := [c.item, b.item, a.item], redo_list := [], group := 0 } f c.item b.item
    [a.item] rfl rfl hc rfl hb hub
  have h5 : dt_undo_do_undo
      { undo_list := [b.item, a.item], redo_list := [c.item], group := 0 } f
        = some ({ undo_list := [a.item], redo_list := [b.item, c.item], group := 0 },
            [Event.lock, undo_event a.item, Event.unlock]) :=
    undo_plain_then_plain
      { undo_list := [b.item, a.item], redo_list := [c.item], group := 0 } f b.item a.item
      [] rfl rfl hb rfl ha hua
  have h6 : dt_undo_do_redo
      { undo_list := [a.item], redo_list := [b.item, c.item], group := 0 } f
        = some ({ undo_list := [b.item, a.item], redo_list := [c.item], group := 0 },
            [Event.lock, undo_event b.item, Event.unlock]) :=
    redo_plain_head
      { undo_list := [a.item], redo_list := [b.item, c.item], group := 0 } f b.item
      [c.item] rfl rfl hb hub
  unfold record3_undo2_redo1
  rw [h3]
  simp only [h4, h5, h6]
  simp [replays, undo_event, replay_of]

theorem abc_undo_undo_redo_witness :
    record3_undo2_redo1 ⟨1, 10, 1, 100, 0, 7, 9⟩ ⟨2, 20, 2, 200, 0, 7, 9⟩ ⟨3, 30, 4, 300, 0, 7, 9⟩
        4294967295
      = some ([(7, 20, 2, 200)], [(7, 10, 1, 100)], [(7, 20, 2, 200)]) :=
  abc_undo_undo_redo ⟨1, 10, 1, 100, 0, 7, 9⟩ ⟨2, 20, 2, 200, 0, 7, 9⟩ ⟨3, 30, 4, 300, 0, 7, 9⟩
    4294967295 (by decide) (by decide) (by decide) (by decide) (by decide) (by decide)

/-- Claim C7 as stated fails: with `A`, `B`, `C` of kinds 1, 2, 4 and the filter
with all 32 bits set, the single `doRedo` after the two `doUndo` calls replays
the entry of `B`, not the entry of `C`. -/
theorem abc_redo_replays_b_not_c :
    record3_undo2_redo1 ⟨1, 10, 1, 100, 0, 7, 9⟩ ⟨2, 20, 2, 200, 0, 7, 9⟩ ⟨3, 30, 4, 300, 0, 7, 9⟩
        4294967295
      = some ([replay_of (real_item 2 20 2 200 0 7 9)], [replay_of (real_item 1 10 1 100 0 7 9)],
          [replay_of (real_item 2 20 2 200 0 7 9)]) ∧
    record3_undo2_redo1 ⟨1, 10, 1, 100, 0, 7, 9⟩ ⟨2, 20, 2, 200, 0, 7, 9⟩ ⟨3, 30, 4, 300, 0, 7, 9⟩
        4294967295
      ≠ some ([replay_of (real_item 2 20 2 200 0 7 9)], [replay_of (real_item 1 10 1 100 0 7 9)],
          [replay_of (real_item 3 30 4 300 0 7 9)]) := by
  have h : record3_undo2_redo1 ⟨1, 10, 1, 100, 0, 7, 9⟩ ⟨2, 20, 2, 200, 0, 7, 9⟩
      ⟨3, 30, 4, 300, 0, 7, 9⟩ 4294967295
      = some ([replay_of (real_item 2 20 2 200 0 7 9)], [replay_of (real_item 1 10 1 100 0 7 9)],
          [replay_of (real_item 2 20 2 200 0 7 9)]) := by
    rfl
  refine ⟨h, ?_⟩
  rw [h]
  simp [replay_of, real_item]

/-- Claim C8. No-op on empty match: when no entry of `past` has a kind matching
the filter, `doUndo(f)` returns the manager exactly as it was (`past`, `future`
and marker) and calls nothing but the lock and the unlock; and when no entry of
`future` has a kind matching the filter, so does `doRedo(f)`. -/
theorem no_match_noop (self : dt_undo_t) (f : Nat) :
    ((∀ x ∈ self.undo_list, type_matches x.obj.type f = false) →
      dt_undo_do_undo self f = some (self, [Event.lock, Event.unlock]) ∧
      releases [Event.lock, Event.unlock] = [] ∧ replays [Event.lock, Event.unlock] = []) ∧
    ((∀ x ∈ self.redo_list, type_matches x.obj.type f = false) →
      dt_undo_do_redo self f = some (self, [Event.lock, Event.unlock])) := by
  constructor
  · intro h
    refine ⟨?_, rfl, rfl⟩
    unfold dt_undo_do_undo g_list_first
    simp only [move_loop_no_match f _ self h, replay_loop_no_match f _ false 1 h]
    rfl
  · intro h
    unfold dt_undo_do_redo g_list_first
    rw [redo_loop_no_match f _ self false 1 h]
    rfl

theorem no_match_noop_witness :
    dt_undo_do_undo
        { undo_list := [real_item 1 0 2 6 0 9 9, group_item 2 4],
          redo_list := [real_item 3 0 1 6 0 9 9], group := 0 } 1
      = some ({ undo_list := [real_item 1 0 2 6 0 9 9, group_item 2 4],
                redo_list := [real_item 3 0 1 6 0 9 9], group := 0 },
              [Event.lock, Event.unlock]) ∧
    dt_undo_do_redo
        { undo_list := [real_item 1 0 2 6 0 9 9, group_item 2 4],
          redo_list := [real_item 3 0 1 6 0 9 9], group := 0 } 6
      = some ({ undo_list := [real_item 1 0 2 6 0 9 9, group_item 2 4],
                redo_list := [real_item 3 0 1 6 0 9 9], group := 0 },
              [Event.lock, Event.unlock]) :=
  ⟨((no_match_noop
      { undo_list := [real_item 1 0 2 6 0 9 9, group_item 2 4],
        redo_list := [real_item 3 0 1 6 0 9 9], group := 0 } 1).1 (by decide)).1,
   (no_match_noop
      { undo_list := [real_item 1 0 2 6 0 9 9, group_item 2 4],
        redo_list := [real_item 3 0 1 6 0 9 9], group := 0 } 6).2 (by decide)⟩

/-! ## Theorems: removal by address, clearing, filter isolation -/

theorem addr_nodup_mid (pre : GList) (x : Item) (xs : GList)
    (h : ((pre ++ x :: xs).map Item.addr).Nodup) :
    (∀ y ∈ pre, y.addr ≠ x.addr) ∧ ((pre ++ xs).map Item.addr).Nodup := by
  rw [List.map_append, List.map_cons, List.nodup_middle, List.nodup_cons] at h
  obtain ⟨h1, h2⟩ := h
  refine ⟨?_, by rwa [List.map_append]⟩
  intro y hy heq
  apply h1
  rw [← heq]
  exact List.mem_append_left _ (List.mem_map_of_mem _ hy)

/-- Removing by address the entry under the cursor when no entry before the
cursor has its address. -/
theorem g_list_remove_append (pre : GList) (item : Item) (next : GList)
    (h : ∀ y ∈ pre, y.addr ≠ item.addr) :
    g_list_remove (pre ++ item :: next) item = pre ++ next := by
  induction pre with
  | nil => simp [g_list_remove]
  | cons y ys ih =>
    have hy : y.addr ≠ item.addr := h y (List.mem_cons_self _ _)
    have ih1 := ih (fun z hz => h z (List.mem_cons_of_mem _ hz))
    show g_list_remove (y :: (ys ++ item :: next)) item = y :: (ys ++ next)
    simp only [g_list_remove, hy, if_false, ih1]

/-- The loop of `_undo_clear_list` on a list of entries at distinct addresses
keeps exactly the entries whose kind does not match, in order, and destroys the
others once each. -/
theorem undo_clear_list_loop_spec (f : Nat) (l : GList) :
    ∀ pre : GList, ((pre ++ l).map Item.addr).Nodup →
      _undo_clear_list.loop f l (pre ++ l)
        = (pre ++ l.filter (fun x => !type_matches x.obj.type f),
           (l.filter (fun x => type_matches x.obj.type f)).flatMap _free_undo_data) := by
  induction l with
  | nil =>
    intro pre _
    simp [_undo_clear_list.loop]
  | cons x xs ih =>
    intro pre hnd
    obtain ⟨hx, hnd1⟩ := addr_nodup_mid pre x xs hnd
    by_cases hm : type_matches x.obj.type f = true
    · simp only [_undo_clear_list.loop, hm, if_true, g_list_remove_append pre x xs hx]
      rw [ih pre hnd1]
      simp [hm]
    · simp only [Bool.not_eq_true] at hm
      have hnd2 : (((pre ++ [x]) ++ xs).map Item.addr).Nodup := by
        simpa using hnd
      have h := ih (pre ++ [x]) hnd2
      simp only [List.append_assoc, List.singleton_append] at h
      simp [_undo_clear_list.loop, hm, h]

/-- The function `_undo_clear_list` keeps the entries that do not match. -/
theorem undo_clear_list_keeps (f : Nat) (l : GList) (hnd : (l.map Item.addr).Nodup) :
    (_undo_clear_list l f).1 = l.filter (fun x => !type_matches x.obj.type f) := by
  unfold _undo_clear_list g_list_first
  have h := undo_clear_list_loop_spec f l [] (by simpa using hnd)
  simp only [List.nil_append] at h
  rw [h]

/-- Claim C9 fails on the code. With `past = a, b` and `future = c`, where `a`
has kind 1 and `b`, `c` have kind 2, `clear(1)` destroys `a` (its payload is
released, the item freed) and returns with `past` and `future` both empty:
`b` and `c`, whose kind does not match the filter, are gone from the sequences
although nothing was released or freed for them. -/
theorem clear_drops_unmatched :
    type_matches 2 1 = false ∧
    dt_undo_clear
        { undo_list := [real_item 1 10 1 100 0 7 9, real_item 2 20 2 200 0 7 9],
          redo_list := [real_item 3 30 2 300 0 7 9], group := 0 } 1
      = ({ undo_list := [], redo_list := [], group := 0 },
         [Event.lock, Event.free_data 9 100, Event.free 1, Event.unlock]) ∧
    (_undo_clear_list [real_item 1 10 1 100 0 7 9, real_item 2 20 2 200 0 7 9] 1).1
      = [real_item 2 20 2 200 0 7 9] := by
  decide

/-- The group loop of `dt_undo_do_undo` with the cursor anywhere in `past`,
the entries being at distinct addresses. -/
theorem group_loop_spec (l : GList) :
    ∀ (pre : GList) (self : dt_undo_t), self.undo_list = pre ++ l →
      ((pre ++ l).map Item.addr).Nodup →
      dt_undo_do_undo.group_loop l self
        = { undo_list := pre ++ group_rest l,
            redo_list := (group_span l).reverse ++ self.redo_list,
            group := self.group } := by
  induction l with
  | nil =>
    intro pre self hp _
    cases self
    simp only [List.append_nil] at hp
    simp [dt_undo_do_undo.group_loop, group_rest, group_span, ← hp]
  | cons x xs ih =>
    intro pre self hp hnd
    obtain ⟨hx, hnd1⟩ := addr_nodup_mid pre x xs hnd
    cases hg : x.obj.is_group
    · have h := ih pre
        { undo_list := pre ++ xs, redo_list := x :: self.redo_list, group := self.group }
        rfl hnd1
      simp [dt_undo_do_undo.group_loop, hp, g_list_remove_append pre x xs hx, g_list_prepend,
        hg, h, group_rest, group_span]
    · simp [dt_undo_do_undo.group_loop, hp, g_list_remove_append pre x xs hx, g_list_prepend,
        hg, group_rest, group_span]

/-- The move loop of `dt_undo_do_undo`, the entries of `past` being at distinct
addresses: it takes `undo_span` out of `past` and leaves `undo_rest`. -/
theorem move_loop_spec (f : Nat) (l : GList) :
    ∀ (pre : GList) (self : dt_undo_t), self.undo_list = pre ++ l →
      ((pre ++ l).map Item.addr).Nodup →
      dt_undo_do_undo.move_loop f l self
        = { undo_list := pre ++ undo_rest f l,
            redo_list := (undo_span f l).reverse ++ self.redo_list,
            group := self.group } := by
  induction l with
  | nil =>
    intro pre self hp _
    cases self
    simp only [List.append_nil] at hp
    simp [dt_undo_do_undo.move_loop, undo_rest, undo_span, ← hp]
  | cons x xs ih =>
    intro pre self hp hnd
    obtain ⟨hx, hnd1⟩ := addr_nodup_mid pre x xs hnd
    by_cases hm : type_matches x.obj.type f = true
    · cases hg : x.obj.is_group
      · simp [dt_undo_do_undo.move_loop, hm, hp, g_list_remove_append pre x xs hx,
          g_list_prepend, hg, undo_rest, undo_span]
      · have h := group_loop_spec xs pre
          { undo_list := pre ++ xs, redo_list := x :: self.redo_list, group := self.group }
          rfl hnd1
        simp [dt_undo_do_undo.move_loop, hm, hp, g_list_remove_append pre x xs hx,
          g_list_prepend, hg, h, undo_rest, undo_span]
    · simp only [Bool.not_eq_true] at hm
      have hnd2 : (((pre ++ [x]) ++ xs).map Item.addr).Nodup := by
        simpa using hnd
      have h := ih (pre ++ [x]) self (by simpa using hp) hnd2
      simp [dt_undo_do_undo.move_loop, hm, h, undo_rest, undo_span]

theorem mem_group_rest (x : Item) (l : GList) (hx : x ∈ l) (hn : x ∉ group_span l) :
    x ∈ group_rest l := by
  induction l with
  | nil => simp at hx
  | cons y ys ih =>
    cases hg : y.obj.is_group
    · simp only [group_span, hg, Bool.false_eq_true, if_false, List.mem_cons, not_or] at hn
      simp only [group_rest, hg, Bool.false_eq_true, if_false]
      rcases List.mem_cons.1 hx with h | h
      · exact absurd h hn.1
      · exact ih h hn.2
    · simp only [group_span, hg, if_true, List.mem_singleton] at hn
      simp only [group_rest, hg, if_true]
      rcases List.mem_cons.1 hx with h | h
      · exact absurd h hn
      · exact h

theorem mem_undo_rest (f : Nat) (x : Item) (l : GList) (hx : x ∈ l)
    (hn : x ∉ undo_span f l) : x ∈ undo_rest f l := by
  induction l with
  | nil => simp at hx
  | cons y ys ih =>
    by_cases hm : type_matches y.obj.type f = true
    · cases hg : y.obj.is_group
      · simp only [undo_span, hm, hg, if_true, Bool.false_eq_true, if_false,
          List.mem_singleton] at hn
        simp only [undo_rest, hm, hg, if_true, Bool.false_eq_true, if_false]
        rcases List.mem_cons.1 hx with h | h
        · exact absurd h hn
        · exact h
      · simp only [undo_span, hm, hg, if_true, List.mem_cons, not_or] at hn
        simp only [undo_rest, hm, hg, if_true]
        rcases List.mem_cons.1 hx with h | h
        · exact absurd h hn.1
        · exact mem_group_rest x ys h hn.2
    · simp only [undo_span, hm, if_false] at hn
      simp only [undo_rest, hm, if_false]
      rcases List.mem_cons.1 hx with h | h
      · rw [h]
        exact List.mem_cons_self _ _
      · exact List.mem_cons_of_mem _ (ih h hn)

theorem group_rest_subset (l : GList) : ∀ x ∈ group_rest l, x ∈ l := by
  induction l with
  | nil => simp [group_rest]
  | cons y ys ih =>
    intro x hx
    cases hg : y.obj.is_group
    · simp only [group_rest, hg, Bool.false_eq_true, if_false] at hx
      exact List.mem_cons_of_mem _ (ih x hx)
    · simp only [group_rest, hg, if_true] at hx
      exact List.mem_cons_of_mem _ hx

theorem undo_rest_subset (f : Nat) (l : GList) : ∀ x ∈ undo_rest f l, x ∈ l := by
  induction l with
  | nil => simp [undo_rest]
  | cons y ys ih =>
    intro x hx
    by_cases hm : type_matches y.obj.type f = true
    · cases hg : y.obj.is_group
      · simp only [undo_rest, hm, hg, if_true, Bool.false_eq_true, if_false] at hx
        exact List.mem_cons_of_mem _ hx
      · simp only [undo_rest, hm, hg, if_true] at hx
        exact List.mem_cons_of_mem _ (group_rest_subset ys x hx)
    · simp only [undo_rest, hm, if_false] at hx
      rcases List.mem_cons.1 hx with h | h
      · rw [h]
        exact List.mem_cons_self _ _
      · exact List.mem_cons_of_mem _ (ih x h)

/-- When the first matching entry of `past` is a non-boundary entry, the span
`doUndo` takes is that entry alone. -/
theorem undo_span_plain (f : Nat) (pre : GList) (m : Item) (rest : GList)
    (hpre : ∀ y ∈ pre, type_matches y.obj.type f = false)
    (hm : type_matches m.obj.type f = true) (hg : m.obj.is_group = false) :
    undo_span f (pre ++ m :: rest) = [m] := by
  induction pre with
  | nil => simp [undo_span, hm, hg]
  | cons y ys ih =>
    have hy := hpre y (List.mem_cons_self _ _)
    simp only [List.cons_append, undo_span, hy, Bool.false_eq_true, if_false]
    exact ih (fun z hz => hpre z (List.mem_cons_of_mem _ hz))

/-- The replay loop of `dt_undo_do_undo` calls replay callbacks on entries of
matching kind only. -/
theorem replay_loop_matching (f : Nat) (l : GList) :
    ∀ (g : Bool) (c : Int) (tr : List Event), dt_undo_do_undo.replay_loop f l g c = some tr →
      ∀ r ∈ replays tr, type_matches r.2.2.1 f = true := by
  induction l with
  | nil =>
    intro g c tr h r hr
    simp only [dt_undo_do_undo.replay_loop, Option.some.injEq] at h
    subst h
    simp [replays] at hr
  | cons x xs ih =>
    intro g c tr h r hr
    by_cases hm : type_matches x.obj.type f = true
    · simp only [dt_undo_do_undo.replay_loop, hm, if_true] at h
      have hev : ∀ ev, (if (!x.obj.is_group) = true then call_undo x else some []) = some ev →
          ∀ r ∈ replays ev, type_matches r.2.2.1 f = true := by
        intro ev hev r hr
        cases hg : x.obj.is_group
        · simp only [hg, Bool.not_false, if_true, call_undo] at hev
          split at hev
          · exact absurd hev (by simp)
          · simp only [Option.some.injEq] at hev
            subst hev
            simp only [replays, List.mem_singleton] at hr
            rw [hr]
            exact hm
        · simp only [hg, Bool.not_true, Bool.false_eq_true, if_false, Option.some.injEq] at hev
          subst hev
          simp [replays] at hr
      generalize (if (x.obj.is_group && c == 1) = true then true else g) = g1 at h
      cases hE : (if (!x.obj.is_group) = true then call_undo x else some []) with
      | none =>
        rw [hE] at h
        exact absurd h (by simp)
      | some ev =>
        rw [hE] at h
        simp only at h
        by_cases hb : (!g1 || x.obj.is_group && decide (c > 1)) = true
        · rw [if_pos hb] at h
          simp only [Option.some.injEq] at h
          subst h
          exact hev ev hE r hr
        · rw [if_neg hb] at h
          cases hR : dt_undo_do_undo.replay_loop f xs g1 (int_wrap (c + 1)) with
          | none =>
            rw [hR] at h
            exact absurd h (by simp)
          | some ev3 =>
            rw [hR] at h
            simp only [Option.some.injEq] at h
            subst h
            rw [replays_append, List.mem_append] at hr
            rcases hr with hr | hr
            · exact hev ev hE r hr
            · exact ih _ _ ev3 hR r hr
    · simp only [dt_undo_do_undo.replay_loop, hm] at h
      exact ih g c tr h r hr

theorem callbacks_ok_of_subset (a b : GList) (h : ∀ x ∈ a, x ∈ b)
    (hb : callbacks_ok b = true) : callbacks_ok a = true := by
  unfold callbacks_ok at hb ⊢
  rw [List.all_eq_true] at hb ⊢
  exact fun x hx => hb x (h x hx)

/-- Claim C10, as the code has it. For a manager whose `past` entries are at
distinct addresses and whose non-boundary `past` entries have replay callbacks,
`doUndo(f)` returns and: every entry of `future` is still in `future`
(`future` only gains, in front, the span taken out of `past`); a replay call is
made only on an entry whose kind matches `f`; every entry of `past` outside the
span taken is still in `past` and is not put into `future`, where the span is
the first `f`-matching entry and, when that entry is a boundary entry, all the
entries after it up to and including the next boundary entry, whatever their
kinds; in particular, when the first `f`-matching entry is a non-boundary
entry, every entry whose kind does not match `f` is still in `past`. -/
theorem undo_filter_isolation (self : dt_undo_t) (f : Nat)
    (hnd : (self.undo_list.map Item.addr).Nodup)
    (hcb : callbacks_ok self.undo_list = true) :
    ∃ s tr, dt_undo_do_undo self f = some (s, tr) ∧
      s.redo_list = (undo_span f self.undo_list).reverse ++ self.redo_list ∧
      s.undo_list = undo_rest f self.undo_list ∧
      (∀ x ∈ self.redo_list, x ∈ s.redo_list) ∧
      (∀ r ∈ replays tr, type_matches r.2.2.1 f = true) ∧
      (∀ x ∈ self.undo_list, x ∉ undo_span f self.undo_list →
        x ∈ s.undo_list ∧ (x ∉ self.redo_list → x ∉ s.redo_list)) ∧
      (∀ pre m rest, self.undo_list = pre ++ m :: rest →
        (∀ y ∈ pre, type_matches y.obj.type f = false) →
        type_matches m.obj.type f = true → m.obj.is_group = false →
        ∀ x ∈ self.undo_list, type_matches x.obj.type f = false → x ∈ s.undo_list) := by
  have hmove := move_loop_spec f self.undo_list [] self rfl (by simpa using hnd)
  simp only [List.nil_append] at hmove
  have hcb1 : callbacks_ok (undo_rest f self.undo_list) = true :=
    callbacks_ok_of_subset _ _ (undo_rest_subset f self.undo_list) hcb
  obtain ⟨tr, htr⟩ := replay_loop_total f _ hcb1 false 1
  have hkeep : ∀ x ∈ self.undo_list, x ∉ undo_span f self.undo_list →
      x ∈ undo_rest f self.undo_list ∧
        (x ∉ self.redo_list →
          x ∉ (undo_span f self.undo_list).reverse ++ self.redo_list) := by
    intro x hx hn
    refine ⟨mem_undo_rest f x _ hx hn, ?_⟩
    intro hr hmem
    rcases List.mem_append.1 hmem with h | h
    · exact hn (List.mem_reverse.1 h)
    · exact hr h
  refine ⟨{ undo_list := undo_rest f self.undo_list,
            redo_list := (undo_span f self.undo_list).reverse ++ self.redo_list,
            group := self.group },
    [Event.lock] ++ tr ++ [Event.unlock], ?_, rfl, rfl, ?_, ?_, hkeep, ?_⟩
  · unfold dt_undo_do_undo g_list_first
    simp only [hmove, htr]
  · intro x hx
    exact List.mem_append_right _ hx
  · intro r hr
    rw [replays_append, replays_append] at hr
    simp only [replays, List.nil_append, List.append_nil] at hr
    exact replay_loop_matching f _ false 1 tr htr r hr
  · intro pre m rest hp hpre hm hg x hx hxm
    apply (hkeep x hx _).1
    rw [hp, undo_span_plain f pre m rest hpre hm hg, List.mem_singleton]
    intro h
    rw [h, hm] at hxm
    exact absurd hxm (by simp)

theorem undo_filter_isolation_witness :
    ∃ s tr,
      dt_undo_do_undo
        { undo_list := [real_item 5 50 2 500 0 7 9, real_item 4 40 1 400 0 7 9,
            group_item 3 1, real_item 2 20 2 200 0 7 9, group_item 1 1],
          redo_list := [real_item 6 60 2 600 0 7 9], group := 0 } 1 = some (s, tr) ∧
      s.redo_list = [real_item 4 40 1 400 0 7 9, real_item 6 60 2 600 0 7 9] ∧
      s.undo_list = [real_item 5 50 2 500 0 7 9, group_item 3 1, real_item 2 20 2 200 0 7 9,
        group_item 1 1] := by
  obtain ⟨s, tr, h1, h2, h3, -⟩ :=
    undo_filter_isolation
      { undo_list := [real_item 5 50 2 500 0 7 9, real_item 4 40 1 400 0 7 9,
          group_item 3 1, real_item 2 20 2 200 0 7 9, group_item 1 1],
        redo_list := [real_item 6 60 2 600 0 7 9], group := 0 } 1 (by decide) (by decide)
  exact ⟨s, tr, h1, h2, h3⟩

/-- Claim C10 as stated fails. The manager reached from a fresh one by
`startGroup(1)`, one record of kind 2 and `endGroup()` has `past = E, x, S`;
the kind 2 of `x` has no bit in common with the filter 1, and yet `doUndo(1)`
moves `x`, with the two boundary entries, from `past` to `future`. -/
theorem undo_moves_unmatched_group_member :
    type_matches 2 1 = false ∧
    (dt_undo_start_group dt_undo_init 1 1).bind (fun r1 =>
      (dt_undo_record r1.1 2 20 2 200 0 7 9).bind (fun r2 =>
        (dt_undo_end_group r2.1 3).map (fun r3 => r3.1)))
      = some { undo_list := [group_item 3 1, real_item 2 20 2 200 0 7 9, group_item 1 1],
               redo_list := [], group := 0 } ∧
    dt_undo_do_undo
        { undo_list := [group_item 3 1, real_item 2 20 2 200 0 7 9, group_item 1 1],
          redo_list := [], group := 0 } 1
      = some ({ undo_list := [],
                redo_list := [group_item 1 1, real_item 2 20 2 200 0 7 9, group_item 3 1],
                group := 0 },
              [Event.lock, Event.unlock]) ∧
    real_item 2 20 2 200 0 7 9 ∉ ([] : GList) := by
  refine ⟨by decide, by decide, by decide, by simp⟩

/-! ## Theorems: coalescing at a group boundary, clearing everything -/

/-- Claim C20. Coalescing never crosses a group boundary: whatever the state
and the tag `t` (zero or not), a record call made right after `startGroup(k)`
or right after `endGroup()` succeeds, prepends its new entry to `past` in front
of the boundary entry and makes no release call, so the new payload is kept,
even when the entry below the boundary has tag `t`.  The boundary entries have
tag 0. -/
theorem record_after_boundary (self : dt_undo_t)
    (k pB p user_data type data t undo free_data : Nat) :
    (∃ s1 tr1 s2 tr2,
      dt_undo_start_group self pB k = some (s1, tr1) ∧
      dt_undo_record s1 p user_data type data t undo free_data = some (s2, tr2) ∧
      s2.undo_list
        = real_item p user_data type data t undo free_data :: group_item pB k
            :: self.undo_list ∧
      releases tr2 = [] ∧ coalesces s1 t = false) ∧
    (∃ s1 tr1 s2 tr2,
      dt_undo_end_group self pB = some (s1, tr1) ∧
      dt_undo_record s1 p user_data type data t undo free_data = some (s2, tr2) ∧
      s2.undo_list
        = real_item p user_data type data t undo free_data :: group_item pB self.group
            :: self.undo_list ∧
      releases tr2 = [] ∧ coalesces s1 t = false) ∧
    (group_item pB k).obj.tag = 0 := by
  have hrec : ∀ (s : dt_undo_t) (b : Item) (rest : GList), s.undo_list = b :: rest →
      b.obj.tag = 0 → s.redo_list = [] →
      dt_undo_record s p user_data type data t undo free_data
        = some ({ undo_list := real_item p user_data type data t undo free_data :: s.undo_list,
                  redo_list := [], group := s.group },
                [Event.lock] ++ g_list_free_full [] ++ [Event.unlock]) ∧
      coalesces s t = false := by
    intro s b rest hs hb hr
    have hnc : t = 0 ∨ s.undo_list = [] ∨
        ∃ top rest, s.undo_list = top :: rest ∧ top.obj.tag ≠ t := by
      by_cases ht : t = 0
      · exact Or.inl ht
      · exact Or.inr (Or.inr ⟨b, rest, hs, by rw [hb]; exact fun h => ht h.symm⟩)
    refine ⟨?_, (not_coalesces_iff s t).2 hnc⟩
    have h := undo_record_fresh s p user_data type data false t undo free_data hnc
    rw [hr] at h
    exact h
  have hstart : dt_undo_start_group self pB k
      = some ({ undo_list := group_item pB k :: self.undo_list, redo_list := [], group := k },
          [Event.lock] ++ g_list_free_full self.redo_list ++ [Event.unlock]) := by
    unfold dt_undo_start_group
    exact undo_record_fresh _ pB NULL k NULL true 0 NULL NULL (Or.inl rfl)
  have hend : dt_undo_end_group self pB
      = some ({ undo_list := group_item pB self.group :: self.undo_list, redo_list := [],
                group := 0 },
          [Event.lock] ++ g_list_free_full self.redo_list ++ [Event.unlock]) := by
    unfold dt_undo_end_group
    rw [undo_record_fresh self pB NULL self.group NULL true 0 NULL NULL (Or.inl rfl)]
    rfl
  refine ⟨?_, ?_, rfl⟩
  · obtain ⟨h1, h2⟩ := hrec
      { undo_list := group_item pB k :: self.undo_list, redo_list := [], group := k }
      (group_item pB k) self.undo_list rfl rfl rfl
    exact ⟨_, _, _, _, hstart, h1, rfl, rfl, h2⟩
  · obtain ⟨h1, h2⟩ := hrec
      { undo_list := group_item pB self.group :: self.undo_list, redo_list := [], group := 0 }
      (group_item pB self.group) self.undo_list rfl rfl rfl
    exact ⟨_, _, _, _, hend, h1, rfl, rfl, h2⟩

theorem releases_flatMap_free (l : GList) :
    releases (l.flatMap _free_undo_data) = l.flatMap release_of := by
  induction l with
  | nil => rfl
  | cons x xs ih => simp [releases_free_undo_data, ih]

theorem replays_flatMap_free (l : GList) : replays (l.flatMap _free_undo_data) = [] := by
  induction l with
  | nil => rfl
  | cons x xs ih => simp [replays_free_undo_data, ih]

/-- The trace of the loop of `_undo_clear_list` does not depend on what
`g_list_remove` finds: every matching entry under the cursor is destroyed. -/
theorem undo_clear_list_loop_trace (f : Nat) (l : GList) :
    ∀ list : GList, (_undo_clear_list.loop f l list).2
      = (l.filter (fun x => type_matches x.obj.type f)).flatMap _free_undo_data := by
  induction l with
  | nil =>
    intro list
    rfl
  | cons x xs ih =>
    intro list
    by_cases hm : type_matches x.obj.type f = true
    · simp [_undo_clear_list.loop, hm, ih]
    · simp only [Bool.not_eq_true] at hm
      simp [_undo_clear_list.loop, hm, ih]

theorem filter_all_match (f : Nat) (l : GList)
    (h : ∀ x ∈ l, type_matches x.obj.type f = true) :
    l.filter (fun x => type_matches x.obj.type f) = l := by
  rw [List.filter_eq_self]
  exact h

/-- Claim C12. Destruction completeness: when every entry of `past` and of
`future` has a kind matching the filter `ALL`, `clear(ALL)` leaves `past` and
`future` empty; it destroys the entries of `past`, then those of `future`, in
list order, each once: its release calls are exactly one per entry that has a
release callback, on that entry's payload; it makes no replay call.  Teardown
(`dt_undo_cleanup`) is this clear followed by the destruction of the mutex. -/
theorem clear_all_destroys (self : dt_undo_t) (ALL : Nat)
    (h : ∀ x ∈ self.undo_list ++ self.redo_list, type_matches x.obj.type ALL = true) :
    (dt_undo_clear self ALL).1.undo_list = [] ∧
    (dt_undo_clear self ALL).1.redo_list = [] ∧
    (dt_undo_clear self ALL).2
      = [Event.lock] ++ (self.undo_list ++ self.redo_list).flatMap _free_undo_data
          ++ [Event.unlock] ∧
    releases (dt_undo_clear self ALL).2
      = (self.undo_list ++ self.redo_list).flatMap release_of ∧
    replays (dt_undo_clear self ALL).2 = [] ∧
    dt_undo_cleanup ALL self
      = ((dt_undo_clear self ALL).1, (dt_undo_clear self ALL).2 ++ [Event.mutex_destroy]) := by
  have hu : ∀ x ∈ self.undo_list, type_matches x.obj.type ALL = true :=
    fun x hx => h x (List.mem_append_left _ hx)
  have hr : ∀ x ∈ self.redo_list, type_matches x.obj.type ALL = true :=
    fun x hx => h x (List.mem_append_right _ hx)
  have htr : (dt_undo_clear self ALL).2
      = [Event.lock] ++ (self.undo_list ++ self.redo_list).flatMap _free_undo_data
          ++ [Event.unlock] := by
    simp only [dt_undo_clear, _undo_clear_list, g_list_first, undo_clear_list_loop_trace,
      filter_all_match ALL _ hu, filter_all_match ALL _ hr, List.flatMap_append,
      List.append_assoc]
  refine ⟨rfl, rfl, htr, ?_, ?_, rfl⟩
  · rw [htr]
    simp [releases, releases_flatMap_free]
  · rw [htr]
    simp [replays, replays_flatMap_free]

theorem clear_all_destroys_witness :
    (dt_undo_clear sample_state 7).1.undo_list = [] ∧
    (dt_undo_clear sample_state 7).1.redo_list = [] ∧
    releases (dt_undo_clear sample_state 7).2 = [(40, 20), (41, 21)] ∧
    replays (dt_undo_clear sample_state 7).2 = [] := by
  obtain ⟨h1, h2, -, h4, h5, -⟩ := clear_all_destroys sample_state 7 (by decide)
  exact ⟨h1, h2, h4, h5⟩

/-! ## Theorems: iteration -/

@[simp] theorem visits_append (a b : List Event) :
    visits (a ++ b) = visits a ++ visits b := by
  induction a with
  | nil => rfl
  | cons e a ih => cases e <;> simp [visits, ih]

/-- The function `_undo_iterate` with a visitor: one call per non-boundary
entry of matching kind, in list order. -/
theorem undo_iterate_spec (f user_data apply : Nat) (happ : apply ≠ NULL) (l : GList) :
    _undo_iterate f user_data apply l
      = some ((visited f l).map fun x => Event.apply apply user_data x.obj.type x.obj.data) := by
  induction l with
  | nil => rfl
  | cons x xs ih =>
    by_cases hv : (!x.obj.is_group && type_matches x.obj.type f) = true
    · simp only [_undo_iterate, hv, if_true, happ, if_false, ih, visited]
      simp [List.filter_cons, hv]
    · simp only [_undo_iterate, hv, ih, visited]
      simp [List.filter_cons, hv]

theorem visits_map_apply (apply user_data : Nat) (l : GList) :
    visits (l.map fun x => Event.apply apply user_data x.obj.type x.obj.data)
      = l.map fun x => (apply, user_data, x.obj.type, x.obj.data) := by
  induction l with
  | nil => rfl
  | cons x xs ih => simp [visits, ih]

theorem replays_map_apply (apply user_data : Nat) (l : GList) :
    replays (l.map fun x => Event.apply apply user_data x.obj.type x.obj.data) = [] := by
  induction l with
  | nil => rfl
  | cons x xs ih => simp [replays, ih]

theorem releases_map_apply (apply user_data : Nat) (l : GList) :
    releases (l.map fun x => Event.apply apply user_data x.obj.type x.obj.data) = [] := by
  induction l with
  | nil => rfl
  | cons x xs ih => simp [releases, ih]

/-- The trace of `dt_undo_iterate` with a visitor. -/
theorem iterate_trace (self : dt_undo_t) (f user_data : Nat) (lock : Bool) (apply : Nat)
    (happ : apply ≠ NULL) :
    dt_undo_iterate self f user_data lock apply
      = some ((if lock then [Event.lock] else [])
          ++ ((visited f self.undo_list).map
                fun x => Event.apply apply user_data x.obj.type x.obj.data)
          ++ ((visited f self.redo_list).map
                fun x => Event.apply apply user_data x.obj.type x.obj.data)
          ++ (if lock then [Event.unlock] else [])) := by
  unfold dt_undo_iterate g_list_first
  simp only [undo_iterate_spec f user_data apply happ]

/-- Claim C13. With a visitor, `iterate(f, visitor, shouldLock)` returns and
calls the visitor exactly once for each non-boundary entry whose kind matches
`f` and for no other entry (never for a boundary entry): first for those of
`past` in list order, then for those of `future` in list order.  It makes no
replay and no release call, and the visits are the same with and without the
lock.  (The function writes no field of the manager: `past` and `future` are
only read.) -/
theorem iterate_visits (self : dt_undo_t) (f user_data : Nat) (lock : Bool) (apply : Nat)
    (happ : apply ≠ NULL) :
    ∃ tr tr2,
      dt_undo_iterate self f user_data lock apply = some tr ∧
      visits tr
        = ((visited f self.undo_list ++ visited f self.redo_list).map
            fun x => (apply, user_data, x.obj.type, x.obj.data)) ∧
      (∀ x, x ∈ visited f self.undo_list ++ visited f self.redo_list ↔
        (x ∈ self.undo_list ∨ x ∈ self.redo_list) ∧ x.obj.is_group = false ∧
          type_matches x.obj.type f = true) ∧
      (visited f self.undo_list).Sublist self.undo_list ∧
      (visited f self.redo_list).Sublist self.redo_list ∧
      replays tr = [] ∧ releases tr = [] ∧
      dt_undo_iterate self f user_data (!lock) apply = some tr2 ∧
      visits tr2 = visits tr := by
  have hv : ∀ b : Bool, visits ((if b then [Event.lock] else [])
      ++ ((visited f self.undo_list).map
            fun x => Event.apply apply user_data x.obj.type x.obj.data)
      ++ ((visited f self.redo_list).map
            fun x => Event.apply apply user_data x.obj.type x.obj.data)
      ++ (if b then [Event.unlock] else []))
      = ((visited f self.undo_list ++ visited f self.redo_list).map
          fun x => (apply, user_data, x.obj.type, x.obj.data)) := by
    intro b
    cases b <;> simp [visits, visits_map_apply]
  refine ⟨_, _, iterate_trace self f user_data lock apply happ, hv lock, ?_,
    List.filter_sublist _, List.filter_sublist _, ?_, ?_,
    iterate_trace self f user_data (!lock) apply happ, ?_⟩
  · intro x
    simp only [visited, List.mem_append, List.mem_filter, Bool.and_eq_true,
      Bool.not_eq_true']
    tauto
  · cases lock <;> simp [replays, replays_map_apply]
  · cases lock <;> simp [releases, releases_map_apply]
  · rw [hv, hv]

theorem iterate_visits_witness :
    ∃ tr, dt_undo_iterate
        { undo_list := [real_item 1 10 1 100 0 7 9, group_item 2 1, real_item 3 30 2 300 0 7 9],
          redo_list := [real_item 4 40 3 400 0 7 9], group := 0 } 1 99 true 77 = some tr ∧
      visits tr = [(77, 99, 1, 100), (77, 99, 3, 400)] ∧
      replays tr = [] ∧ releases tr = [] := by
  obtain ⟨tr, tr2, h1, h2, -, -, -, h3, h4, -⟩ :=
    iterate_visits
      { undo_list := [real_item 1 10 1 100 0 7 9, group_item 2 1, real_item 3 30 2 300 0 7 9],
        redo_list := [real_item 4 40 3 400 0 7 9], group := 0 } 1 99 true 77 (by decide)
  exact ⟨tr, h1, h2, h3, h4⟩

/-- Claim C14, as the code has it. For every entry that `iterate` visits, the
visitor is called with the context argument given to `iterate` itself, and with
that entry's own kind and payload: the first argument is the same for all the
visits of a call and is not the owner context recorded with the entry. -/
theorem iterate_visit_arguments (self : dt_undo_t) (f user_data : Nat) (lock : Bool)
    (apply : Nat) (happ : apply ≠ NULL) :
    ∃ tr, dt_undo_iterate self f user_data lock apply = some tr ∧
      visits tr
        = ((visited f self.undo_list ++ visited f self.redo_list).map
            fun x => (apply, user_data, x.obj.type, x.obj.data)) ∧
      ∀ v ∈ visits tr, v.1 = apply ∧ v.2.1 = user_data ∧
        ∃ x, (x ∈ self.undo_list ∨ x ∈ self.redo_list) ∧
          v.2.2.1 = x.obj.type ∧ v.2.2.2 = x.obj.data := by
  have hv : visits ((if lock then [Event.lock] else [])
      ++ ((visited f self.undo_list).map
            fun x => Event.apply apply user_data x.obj.type x.obj.data)
      ++ ((visited f self.redo_list).map
            fun x => Event.apply apply user_data x.obj.type x.obj.data)
      ++ (if lock then [Event.unlock] else []))
      = ((visited f self.undo_list ++ visited f self.redo_list).map
          fun x => (apply, user_data, x.obj.type, x.obj.data)) := by
    cases lock <;> simp [visits, visits_map_apply]
  refine ⟨_, iterate_trace self f user_data lock apply happ, hv, ?_⟩
  intro v hvm
  rw [hv] at hvm
  obtain ⟨x, hx, rfl⟩ := List.mem_map.1 hvm
  refine ⟨rfl, rfl, x, ?_, rfl, rfl⟩
  simp only [visited, List.mem_append, List.mem_filter] at hx
  tauto

theorem iterate_visit_arguments_witness :
    ∃ tr, dt_undo_iterate
        { undo_list := [real_item 1 10 1 100 0 7 9], redo_list := [], group := 0 }
        1 99 false 77 = some tr ∧
      visits tr = [(77, 99, 1, 100)] := by
  obtain ⟨tr, h1, h2, -⟩ :=
    iterate_visit_arguments
      { undo_list := [real_item 1 10 1 100 0 7 9], redo_list := [], group := 0 }
      1 99 false 77 (by decide)
  exact ⟨tr, h1, h2⟩

/-- Claim C14 as stated fails: an entry recorded on a fresh manager with owner
context 10, kind 1 and payload 100 is visited by `iterate` (context argument 99,
visitor 77) as `visitor(99, 1, 100)`, not as `visitor(10, 1, 100)`. -/
theorem iterate_passes_its_own_context :
    dt_undo_record dt_undo_init 1 10 1 100 0 7 9
      = some ({ undo_list := [real_item 1 10 1 100 0 7 9], redo_list := [], group := 0 },
          [Event.lock, Event.unlock]) ∧
    dt_undo_iterate { undo_list := [real_item 1 10 1 100 0 7 9], redo_list := [], group := 0 }
        1 99 true 77
      = some [Event.lock, Event.apply 77 99 1 100, Event.unlock] ∧
    Event.apply 77 99 1 100 ≠ Event.apply 77 10 1 100 := by
  refine ⟨by decide, by decide, by decide⟩

/-! ## Theorems: the lock -/

/-- Claim C16 fails on the code. A record call that is coalesced (here: tag 5
on `sample_state`, whose most recent entry has tag 5) calls the release
callback on the new payload without taking the mutex at all: its whole trace is
that one call.  The other operations do hold the mutex around their callbacks,
as a non-coalesced record and `clear` on the same state show. -/
theorem coalesced_release_without_lock :
    dt_undo_record sample_state 4 12 1 22 5 32 42
      = some (sample_state, [Event.free_data 42 22]) ∧
    callbacks_locked false [Event.free_data 42 22] = false ∧
    (dt_undo_record sample_state 4 12 1 22 6 32 42).map (fun r => callbacks_locked false r.2)
      = some true ∧
    callbacks_locked false (dt_undo_clear sample_state 7).2 = true := by
  refine ⟨by decide, by decide, by decide, by decide⟩

/-! ## Theorems: the steps of undo and redo in general position -/

theorem move_loop_skip (f : Nat) (pre l : GList) (self : dt_undo_t)
    (h : ∀ y ∈ pre, type_matches y.obj.type f = false) :
    dt_undo_do_undo.move_loop f (pre ++ l) self = dt_undo_do_undo.move_loop f l self := by
  induction pre with
  | nil => rfl
  | cons y ys ih =>
    show dt_undo_do_undo.move_loop f (y :: (ys ++ l)) self = _
    simp only [dt_undo_do_undo.move_loop, h y (List.mem_cons_self _ _)]
    exact ih (fun z hz => h z (List.mem_cons_of_mem _ hz))

theorem replay_loop_skip (f : Nat) (pre l : GList) (g : Bool) (c : Int)
    (h : ∀ y ∈ pre, type_matches y.obj.type f = false) :
    dt_undo_do_undo.replay_loop f (pre ++ l) g c = dt_undo_do_undo.replay_loop f l g c := by
  induction pre with
  | nil => rfl
  | cons y ys ih =>
    show dt_undo_do_undo.replay_loop f (y :: (ys ++ l)) g c = _
    simp only [dt_undo_do_undo.replay_loop, h y (List.mem_cons_self _ _)]
    exact ih (fun z hz => h z (List.mem_cons_of_mem _ hz))

theorem redo_loop_skip (f : Nat) (pre l : GList) (self : dt_undo_t) (g : Bool) (c : Int)
    (h : ∀ y ∈ pre, type_matches y.obj.type f = false) :
    dt_undo_do_redo.loop f (pre ++ l) self g c = dt_undo_do_redo.loop f l self g c := by
  induction pre with
  | nil => rfl
  | cons y ys ih =>
    show dt_undo_do_redo.loop f (y :: (ys ++ l)) self g c = _
    simp only [dt_undo_do_redo.loop, h y (List.mem_cons_self _ _)]
    exact ih (fun z hz => h z (List.mem_cons_of_mem _ hz))

/-- The move phase of `dt_undo_do_undo` when the first matching entry of `past`
is a non-boundary entry whose address is not that of an entry before it. -/
theorem move_loop_plain (self : dt_undo_t) (f : Nat) (pre : GList) (e : Item) (rest : GList)
    (hpast : self.undo_list = pre ++ e :: rest)
    (hpre : ∀ y ∈ pre, type_matches y.obj.type f = false)
    (hm : type_matches e.obj.type f = true) (he : e.obj.is_group = false)
    (haddr : ∀ y ∈ pre, y.addr ≠ e.addr) :
    dt_undo_do_undo.move_loop f self.undo_list self
      = { undo_list := pre ++ rest, redo_list := e :: self.redo_list, group := self.group } := by
  rw [hpast, move_loop_skip f pre _ self hpre]
  simp [dt_undo_do_undo.move_loop, hm, he, hpast, g_list_remove_append pre e rest haddr,
    g_list_prepend]

/-- Claim C17. Plain undo step: when the first entry of `past` whose kind
matches `f` is a non-boundary entry `e` (at an address of its own), `doUndo(f)`
takes exactly `e` out of `past`, the other entries keeping their order, and
puts it in front of `future`.  When the first `f`-matching entry `p` of the
resulting `past` is a non-boundary entry (with a replay callback), the call
makes exactly one replay call, on `p`, with the owner context, kind and payload
of `p`; when the resulting `past` has no `f`-matching entry it makes no replay
call.  Nothing is replayed for `e`. -/
theorem undo_plain_step (self : dt_undo_t) (f : Nat) (pre : GList) (e : Item) (rest : GList)
    (hpast : self.undo_list = pre ++ e :: rest)
    (hpre : ∀ y ∈ pre, type_matches y.obj.type f = false)
    (hm : type_matches e.obj.type f = true) (he : e.obj.is_group = false)
    (haddr : ∀ y ∈ pre, y.addr ≠ e.addr) :
    (∀ (mid : GList) (p : Item) (tail : GList), rest = mid ++ p :: tail →
      (∀ y ∈ mid, type_matches y.obj.type f = false) →
      type_matches p.obj.type f = true → p.obj.is_group = false → p.obj.undo ≠ NULL →
      dt_undo_do_undo self f
        = some ({ undo_list := pre ++ rest, redo_list := e :: self.redo_list,
                  group := self.group },
            [Event.lock,
             Event.undo p.obj.undo p.obj.user_data p.obj.type p.obj.data,
             Event.unlock])) ∧
    ((∀ y ∈ rest, type_matches y.obj.type f = false) →
      dt_undo_do_undo self f
        = some ({ undo_list := pre ++ rest, redo_list := e :: self.redo_list,
                  group := self.group },
            [Event.lock, Event.unlock])) := by
  have hmove := move_loop_plain self f pre e rest hpast hpre hm he haddr
  constructor
  · intro mid p tail hrest hmid hmp hpg hpu
    have hskip : ∀ y ∈ pre ++ mid, type_matches y.obj.type f = false := by
      intro y hy
      rcases List.mem_append.1 hy with h | h
      · exact hpre y h
      · exact hmid y h
    have hrep : dt_undo_do_undo.replay_loop f (pre ++ rest) false 1
        = some [Event.undo p.obj.undo p.obj.user_data p.obj.type p.obj.data] := by
      rw [hrest, ← List.append_assoc, replay_loop_skip f (pre ++ mid) _ false 1 hskip]
      simp [dt_undo_do_undo.replay_loop, hmp, hpg, call_undo, hpu]
    unfold dt_undo_do_undo g_list_first
    simp only [hmove, hrep]
    rfl
  · intro hnone
    have hskip : ∀ y ∈ pre ++ rest, type_matches y.obj.type f = false := by
      intro y hy
      rcases List.mem_append.1 hy with h | h
      · exact hpre y h
      · exact hnone y h
    unfold dt_undo_do_undo g_list_first
    simp only [hmove, replay_loop_no_match f _ false 1 hskip]
    rfl

theorem undo_plain_step_witness :
    dt_undo_do_undo
        { undo_list := [real_item 5 50 2 500 0 7 9, real_item 4 40 1 400 0 7 9,
            real_item 3 30 2 300 0 7 9, real_item 2 20 1 200 0 8 9, group_item 1 1],
          redo_list := [real_item 6 60 2 600 0 7 9], group := 0 } 1
      = some ({ undo_list := [real_item 5 50 2 500 0 7 9] ++ [real_item 3 30 2 300 0 7 9,
                  real_item 2 20 1 200 0 8 9, group_item 1 1],
                redo_list := [real_item 4 40 1 400 0 7 9, real_item 6 60 2 600 0 7 9],
                group := 0 },
          [Event.lock, Event.undo 8 20 1 200, Event.unlock]) :=
  (undo_plain_step
    { undo_list := [real_item 5 50 2 500 0 7 9, real_item 4 40 1 400 0 7 9,
        real_item 3 30 2 300 0 7 9, real_item 2 20 1 200 0 8 9, group_item 1 1],
      redo_list := [real_item 6 60 2 600 0 7 9], group := 0 } 1
    [real_item 5 50 2 500 0 7 9] (real_item 4 40 1 400 0 7 9)
    [real_item 3 30 2 300 0 7 9, real_item 2 20 1 200 0 8 9, group_item 1 1]
    rfl (by decide) (by decide) rfl (by decide)).1
    [real_item 3 30 2 300 0 7 9] (real_item 2 20 1 200 0 8 9) [group_item 1 1]
    rfl (by decide) (by decide) rfl (by decide)

/-- The replay loop of `dt_undo_do_undo` once it is inside a group. -/
theorem replay_loop_in_group (f : Nat) (l : GList) :
    ∀ c : Int, 1 < c → c + l.length < 2 ^ 31 → callbacks_ok l = true →
      dt_undo_do_undo.replay_loop f l true c
        = some ((replay_span f l).map undo_event) := by
  induction l with
  | nil =>
    intro c _ _ _
    rfl
  | cons x xs ih =>
    intro c hc hlen hcb
    obtain ⟨hx, hxs⟩ := (callbacks_ok_cons x xs).1 hcb
    simp only [List.length_cons, Nat.cast_add, Nat.cast_one] at hlen
    by_cases hm : type_matches x.obj.type f = true
    · cases hg : x.obj.is_group
      · have hw : int_wrap (c + 1) = c + 1 := int_wrap_succ c (by omega) (by omega)
        have h := ih (c + 1) (by omega) (by omega) hxs
        simp [dt_undo_do_undo.replay_loop, replay_span, hm, hg, call_undo, hx hg, hw, h,
          undo_event]
      · simp [dt_undo_do_undo.replay_loop, replay_span, hm, hg, hc]
    · simp only [Bool.not_eq_true] at hm
      have h := ih c hc (by omega) hxs
      simp [dt_undo_do_undo.replay_loop, replay_span, hm, h]

theorem replay_span_matching (f : Nat) (l : GList) :
    ∀ x ∈ replay_span f l, x ∈ l ∧ x.obj.is_group = false ∧ type_matches x.obj.type f = true := by
  induction l with
  | nil => simp [replay_span]
  | cons y ys ih =>
    intro x hx
    by_cases hm : type_matches y.obj.type f = true
    · cases hg : y.obj.is_group
      · simp only [replay_span, hm, hg, if_true, Bool.false_eq_true, if_false,
          List.mem_cons] at hx
        rcases hx with h | h
        · subst h
          exact ⟨List.mem_cons_self _ _, hg, hm⟩
        · obtain ⟨h1, h2⟩ := ih x h
          exact ⟨List.mem_cons_of_mem _ h1, h2⟩
      · simp [replay_span, hm, hg] at hx
    · simp only [replay_span, hm, if_false] at hx
      obtain ⟨h1, h2⟩ := ih x hx
      exact ⟨List.mem_cons_of_mem _ h1, h2⟩

/-- When every entry of the group matches the filter, the entries replayed are
all the entries between the two boundary entries. -/
theorem replay_span_uniform (f : Nat) (mid : GList) (S : Item) (rest : GList)
    (hmid : ∀ x ∈ mid, x.obj.is_group = false ∧ type_matches x.obj.type f = true)
    (hS : S.obj.is_group = true) (hmS : type_matches S.obj.type f = true) :
    replay_span f (mid ++ S :: rest) = mid := by
  induction mid with
  | nil => simp [replay_span, hS, hmS]
  | cons y ys ih =>
    obtain ⟨hg, hm⟩ := hmid y (List.mem_cons_self _ _)
    have h := ih (fun z hz => hmid z (List.mem_cons_of_mem _ hz))
    show replay_span f (y :: (ys ++ S :: rest)) = y :: ys
    simp only [replay_span, hm, hg, if_true, Bool.false_eq_true, if_false, h]

/-- Claim C18, as the code has it. Group replay in undo: when, after the move
phase of `doUndo(f)`, the first entry of `past` whose kind matches `f` is a
boundary entry `b`, `doUndo(f)` makes exactly one replay call for every
non-boundary entry whose kind matches `f` among the entries that follow `b`, in
list order, up to the next boundary entry whose kind matches `f`, where it
stops; it replays no boundary entry, no entry whose kind does not match `f`,
and nothing beyond that boundary entry.  When every entry of the group matches
`f`, these are all the entries between the two boundary entries.  (The
non-boundary entries after `b` have replay callbacks and are fewer than
`2 ^ 31 - 2`, the range of the `int` counter.) -/
theorem undo_group_replay (self : dt_undo_t) (f : Nat) (pre : GList) (b : Item) (tail : GList)
    (hQ : (dt_undo_do_undo.move_loop f self.undo_list self).undo_list = pre ++ b :: tail)
    (hpre : ∀ y ∈ pre, type_matches y.obj.type f = false)
    (hb : type_matches b.obj.type f = true) (hbg : b.obj.is_group = true)
    (hcb : callbacks_ok tail = true) (hlen : tail.length + 2 < 2 ^ 31) :
    ∃ s tr, dt_undo_do_undo self f = some (s, tr) ∧
      s.undo_list = pre ++ b :: tail ∧
      replays tr = (replay_span f tail).map replay_of ∧
      (∀ x ∈ replay_span f tail,
        x ∈ tail ∧ x.obj.is_group = false ∧ type_matches x.obj.type f = true) ∧
      (∀ (mid : GList) (S : Item) (rest : GList), tail = mid ++ S :: rest →
        (∀ x ∈ mid, x.obj.is_group = false ∧ type_matches x.obj.type f = true) →
        S.obj.is_group = true → type_matches S.obj.type f = true →
        replays tr = mid.map replay_of) := by
  have hw : int_wrap 2 = 2 := by
    unfold int_wrap
    norm_num
  have hin := replay_loop_in_group f tail 2 (by norm_num)
    (by
      have : (tail.length : Int) + 2 < 2 ^ 31 := by exact_mod_cast hlen
      omega) hcb
  have hrep : dt_undo_do_undo.replay_loop f (pre ++ b :: tail) false 1
      = some ((replay_span f tail).map undo_event) := by
    rw [replay_loop_skip f pre _ false 1 hpre]
    simp [dt_undo_do_undo.replay_loop, hb, hbg, hw, hin]
  have hreplays : replays ([Event.lock] ++ (replay_span f tail).map undo_event
      ++ [Event.unlock]) = (replay_span f tail).map replay_of := by
    rw [replays_append, replays_append, replays_map_undo_event]
    simp [replays]
  refine ⟨dt_undo_do_undo.move_loop f self.undo_list self,
    [Event.lock] ++ (replay_span f tail).map undo_event ++ [Event.unlock],
    ?_, hQ, hreplays, replay_span_matching f tail, ?_⟩
  · unfold dt_undo_do_undo g_list_first
    simp only [hQ, hrep]
  · intro mid S rest ht hmid hS hmS
    rw [hreplays, ht, replay_span_uniform f mid S rest hmid hS hmS]

theorem undo_group_replay_witness :
    ∃ s tr,
      dt_undo_do_undo
        { undo_list := [real_item 6 60 1 600 0 7 9, group_item 5 1, real_item 4 40 2 400 0 7 9,
            real_item 3 30 1 300 0 8 9, group_item 2 1, real_item 1 10 1 100 0 7 9],
          redo_list := [], group := 0 } 1 = some (s, tr) ∧
      s.undo_list = [] ++ group_item 5 1 :: [real_item 4 40 2 400 0 7 9,
        real_item 3 30 1 300 0 8 9, group_item 2 1, real_item 1 10 1 100 0 7 9] ∧
      replays tr = [(8, 30, 1, 300)] := by
  obtain ⟨s, tr, h1, h2, h3, -⟩ :=
    undo_group_replay
      { undo_list := [real_item 6 60 1 600 0 7 9, group_item 5 1, real_item 4 40 2 400 0 7 9,
          real_item 3 30 1 300 0 8 9, group_item 2 1, real_item 1 10 1 100 0 7 9],
        redo_list := [], group := 0 } 1 [] (group_item 5 1)
      [real_item 4 40 2 400 0 7 9, real_item 3 30 1 300 0 8 9, group_item 2 1,
        real_item 1 10 1 100 0 7 9]
      (by decide) (by decide) (by decide) rfl (by decide) (by decide)
  exact ⟨s, tr, h1, h2, h3⟩

/-- Claim C18 as stated fails. After `startGroup(1)`, a record of kind 1, a
record of kind 2, `endGroup()` and a record of kind 1, `doUndo(1)` moves the last
entry to `future`; the first matching entry of `past` is then the boundary
entry `E`, followed by the entry of kind 2, the entry of kind 1 and the boundary
entry `S`.  The call replays the entry of kind 1 only: the non-boundary entry
of kind 2 that follows `E` is not replayed. -/
theorem undo_skips_unmatched_group_member :
    (dt_undo_start_group dt_undo_init 2 1).bind (fun r1 =>
      (dt_undo_record_all r1.1 [⟨3, 30, 1, 300, 0, 8, 9⟩, ⟨4, 40, 2, 400, 0, 7, 9⟩]).bind
        (fun r2 => (dt_undo_end_group r2.1 5).bind (fun r3 =>
          (dt_undo_record r3.1 6 60 1 600 0 7 9).map (fun r4 => r4.1))))
      = some { undo_list := [real_item 6 60 1 600 0 7 9, group_item 5 1,
                 real_item 4 40 2 400 0 7 9, real_item 3 30 1 300 0 8 9, group_item 2 1],
               redo_list := [], group := 0 } ∧
    dt_undo_do_undo
        { undo_list := [real_item 6 60 1 600 0 7 9, group_item 5 1,
            real_item 4 40 2 400 0 7 9, real_item 3 30 1 300 0 8 9, group_item 2 1],
          redo_list := [], group := 0 } 1
      = some ({ undo_list := [group_item 5 1, real_item 4 40 2 400 0 7 9,
                  real_item 3 30 1 300 0 8 9, group_item 2 1],
                redo_list := [real_item 6 60 1 600 0 7 9], group := 0 },
              [Event.lock, Event.undo 8 30 1 300, Event.unlock]) ∧
    replays [Event.lock, Event.undo 8 30 1 300, Event.unlock]
      ≠ [replay_of (real_item 4 40 2 400 0 7 9), replay_of (real_item 3 30 1 300 0 8 9)] := by
  refine ⟨by decide, by decide, by decide⟩

/-- The loop of `dt_undo_do_redo` once it is inside a group, with the cursor
anywhere in `future`, the entries being at distinct addresses. -/
theorem redo_loop_group_spec (f : Nat) (l : GList) :
    ∀ (pre : GList) (self : dt_undo_t) (c : Int), self.redo_list = pre ++ l →
      ((pre ++ l).map Item.addr).Nodup → callbacks_ok l = true →
      1 < c → c + l.length < 2 ^ 31 →
      dt_undo_do_redo.loop f l self true c
        = some ({ undo_list := (group_redo_span f l).reverse ++ self.undo_list,
                  redo_list := pre ++ group_redo_rest f l,
                  group := self.group },
                ((group_redo_span f l).filter (fun x => !x.obj.is_group)).map undo_event) := by
  induction l with
  | nil =>
    intro pre self c hr _ _ _ _
    cases self
    simp only [List.append_nil] at hr
    simp [dt_undo_do_redo.loop, group_redo_span, group_redo_rest, ← hr]
  | cons x xs ih =>
    intro pre self c hr hnd hcb hc hlen
    obtain ⟨hxa, hnd1⟩ := addr_nodup_mid pre x xs hnd
    obtain ⟨hx, hxs⟩ := (callbacks_ok_cons x xs).1 hcb
    simp only [List.length_cons, Nat.cast_add, Nat.cast_one] at hlen
    by_cases hm : type_matches x.obj.type f = true
    · cases hg : x.obj.is_group
      · have hw : int_wrap (c + 1) = c + 1 := int_wrap_succ c (by omega) (by omega)
        have h := ih pre
          { undo_list := x :: self.undo_list, redo_list := pre ++ xs, group := self.group }
          (c + 1) rfl hnd1 hxs (by omega) (by omega)
        simp [dt_undo_do_redo.loop, group_redo_span, group_redo_rest, hm, hg, call_undo,
          hx hg, hw, hr, g_list_remove_append pre x xs hxa, g_list_prepend, h, undo_event]
      · simp [dt_undo_do_redo.loop, group_redo_span, group_redo_rest, hm, hg, hc, hr,
          g_list_remove_append pre x xs hxa, g_list_prepend]
    · simp only [Bool.not_eq_true] at hm
      have hnd2 : (((pre ++ [x]) ++ xs).map Item.addr).Nodup := by
        simpa using hnd
      have h := ih (pre ++ [x]) self c (by simpa using hr) hnd2 hxs hc (by omega)
      simp [dt_undo_do_redo.loop, group_redo_span, group_redo_rest, hm, h]

/-- When every entry of the group matches the filter, the loop moves all the
entries up to and including the next boundary entry. -/
theorem group_redo_uniform (f : Nat) (mid : GList) (E : Item) (rest : GList)
    (hmid : ∀ x ∈ mid, x.obj.is_group = false ∧ type_matches x.obj.type f = true)
    (hE : E.obj.is_group = true) (hmE : type_matches E.obj.type f = true) :
    group_redo_span f (mid ++ E :: rest) = mid ++ [E] ∧
      group_redo_rest f (mid ++ E :: rest) = rest := by
  induction mid with
  | nil => simp [group_redo_span, group_redo_rest, hE, hmE]
  | cons y ys ih =>
    obtain ⟨hg, hm⟩ := hmid y (List.mem_cons_self _ _)
    obtain ⟨h1, h2⟩ := ih (fun z hz => hmid z (List.mem_cons_of_mem _ hz))
    constructor
    · show group_redo_span f (y :: (ys ++ E :: rest)) = y :: (ys ++ [E])
      simp only [group_redo_span, hm, hg, if_true, Bool.false_eq_true, if_false, h1]
    · show group_redo_rest f (y :: (ys ++ E :: rest)) = rest
      simp only [group_redo_rest, hm, hg, if_true, Bool.false_eq_true, if_false, h2]

theorem group_redo_span_matching (f : Nat) (l : GList) :
    ∀ x ∈ group_redo_span f l, x ∈ l ∧ type_matches x.obj.type f = true := by
  induction l with
  | nil => simp [group_redo_span]
  | cons y ys ih =>
    intro x hx
    by_cases hm : type_matches y.obj.type f = true
    · cases hg : y.obj.is_group
      · simp only [group_redo_span, hm, hg, if_true, Bool.false_eq_true, if_false,
          List.mem_cons] at hx
        rcases hx with h | h
        · subst h
          exact ⟨List.mem_cons_self _ _, hm⟩
        · obtain ⟨h1, h2⟩ := ih x h
          exact ⟨List.mem_cons_of_mem _ h1, h2⟩
      · simp only [group_redo_span, hm, hg, if_true, List.mem_singleton] at hx
        subst hx
        exact ⟨List.mem_cons_self _ _, hm⟩
    · simp only [group_redo_span, hm, if_false] at hx
      obtain ⟨h1, h2⟩ := ih x hx
      exact ⟨List.mem_cons_of_mem _ h1, h2⟩

/-- What `doRedo(f)` does when the first entry of `future` whose kind matches
`f` is a boundary entry `b`: it moves `b` and then, in turn, every entry after
`b` whose kind matches `f`, up to and including the next boundary entry whose
kind matches `f`, from `future` to the front of `past`, and makes exactly one
replay call for each moved non-boundary entry, as it is moved.  The entries
after `b` whose kind does not match `f` stay in `future`, in order, and are not
replayed.  When every entry of the group matches `f`, the whole group (`b`,
the entries that follow, the next boundary entry) is back in `past` after the
call.  (Entries of `future` at distinct addresses, replay callbacks on its
non-boundary entries, fewer than `2 ^ 31 - 2` entries after `b`.) -/
theorem redo_group_step (self : dt_undo_t) (f : Nat) (pre : GList) (b : Item) (tail : GList)
    (hfut : self.redo_list = pre ++ b :: tail)
    (hpre : ∀ y ∈ pre, type_matches y.obj.type f = false)
    (hb : type_matches b.obj.type f = true) (hbg : b.obj.is_group = true)
    (hnd : (self.redo_list.map Item.addr).Nodup)
    (hcb : callbacks_ok tail = true) (hlen : tail.length + 2 < 2 ^ 31) :
    ∃ s tr, dt_undo_do_redo self f = some (s, tr) ∧
      s.undo_list = (group_redo_span f tail).reverse ++ b :: self.undo_list ∧
      s.redo_list = pre ++ group_redo_rest f tail ∧
      replays tr
        = ((group_redo_span f tail).filter (fun x => !x.obj.is_group)).map replay_of ∧
      (∀ x ∈ group_redo_span f tail, x ∈ tail ∧ type_matches x.obj.type f = true) ∧
      (∀ (mid : GList) (E : Item) (rest : GList), tail = mid ++ E :: rest →
        (∀ x ∈ mid, x.obj.is_group = false ∧ type_matches x.obj.type f = true) →
        E.obj.is_group = true → type_matches E.obj.type f = true →
        s.undo_list = E :: mid.reverse ++ b :: self.undo_list ∧
        s.redo_list = pre ++ rest ∧
        replays tr = mid.map replay_of) := by
  have hw : int_wrap 2 = 2 := by
    unfold int_wrap
    norm_num
  rw [hfut] at hnd
  obtain ⟨hba, hnd1⟩ := addr_nodup_mid pre b tail hnd
  have hin := redo_loop_group_spec f tail pre
    { undo_list := b :: self.undo_list, redo_list := pre ++ tail, group := self.group } 2 rfl
    hnd1 hcb (by norm_num)
    (by
      have : (tail.length : Int) + 2 < 2 ^ 31 := by exact_mod_cast hlen
      omega)
  have hloop : dt_undo_do_redo.loop f (pre ++ b :: tail) self false 1
      = some ({ undo_list := (group_redo_span f tail).reverse ++ b :: self.undo_list,
                redo_list := pre ++ group_redo_rest f tail,
                group := self.group },
              ((group_redo_span f tail).filter (fun x => !x.obj.is_group)).map undo_event) := by
    rw [redo_loop_skip f pre _ self false 1 hpre]
    simp [dt_undo_do_redo.loop, hb, hbg, hw, hfut, g_list_remove_append pre b tail hba,
      g_list_prepend, hin]
  have hreplays : replays ([Event.lock]
      ++ ((group_redo_span f tail).filter (fun x => !x.obj.is_group)).map undo_event
      ++ [Event.unlock])
      = ((group_redo_span f tail).filter (fun x => !x.obj.is_group)).map replay_of := by
    rw [replays_append, replays_append, replays_map_undo_event]
    simp [replays]
  refine ⟨{ undo_list := (group_redo_span f tail).reverse ++ b :: self.undo_list,
            redo_list := pre ++ group_redo_rest f tail,
            group := self.group },
    [Event.lock]
      ++ ((group_redo_span f tail).filter (fun x => !x.obj.is_group)).map undo_event
      ++ [Event.unlock],
    ?_, rfl, rfl, hreplays, group_redo_span_matching f tail, ?_⟩
  · unfold dt_undo_do_redo g_list_first
    rw [hfut, hloop]
  · intro mid E rest ht hmid hE hmE
    obtain ⟨h1, h2⟩ := group_redo_uniform f mid E rest hmid hE hmE
    have hfil : (mid ++ [E]).filter (fun x => !x.obj.is_group) = mid := by
      rw [List.filter_append]
      have h3 : mid.filter (fun x => !x.obj.is_group) = mid := by
        rw [List.filter_eq_self]
        intro x hx
        simp [(hmid x hx).1]
      simp [h3, hE]
    refine ⟨?_, ?_, ?_⟩
    · show (group_redo_span f tail).reverse ++ b :: self.undo_list = _
      rw [ht, h1]
      simp
    · show pre ++ group_redo_rest f tail = _
      rw [ht, h2]
    · rw [hreplays, ht, h1, hfil]

theorem redo_group_step_witness :
    ∃ s tr,
      dt_undo_do_redo
        { undo_list := [real_item 9 90 1 900 0 7 9],
          redo_list := [real_item 8 80 2 800 0 7 9, group_item 1 1, real_item 2 20 1 200 0 7 9,
            real_item 3 30 2 300 0 7 9, real_item 4 40 1 400 0 8 9, group_item 5 1,
            real_item 6 60 1 600 0 7 9],
          group := 0 } 1 = some (s, tr) ∧
      s.undo_list = [group_item 5 1, real_item 4 40 1 400 0 8 9, real_item 2 20 1 200 0 7 9,
        group_item 1 1, real_item 9 90 1 900 0 7 9] ∧
      s.redo_list = [real_item 8 80 2 800 0 7 9, real_item 3 30 2 300 0 7 9,
        real_item 6 60 1 600 0 7 9] ∧
      replays tr = [(7, 20, 1, 200), (8, 40, 1, 400)] := by
  obtain ⟨s, tr, h1, h2, h3, h4, -⟩ :=
    redo_group_step
      { undo_list := [real_item 9 90 1 900 0 7 9],
        redo_list := [real_item 8 80 2 800 0 7 9, group_item 1 1, real_item 2 20 1 200 0 7 9,
          real_item 3 30 2 300 0 7 9, real_item 4 40 1 400 0 8 9, group_item 5 1,
          real_item 6 60 1 600 0 7 9],
        group := 0 } 1
      [real_item 8 80 2 800 0 7 9] (group_item 1 1)
      [real_item 2 20 1 200 0 7 9, real_item 3 30 2 300 0 7 9, real_item 4 40 1 400 0 8 9,
        group_item 5 1, real_item 6 60 1 600 0 7 9]
      rfl (by decide) (by decide) rfl (by decide) (by decide) (by decide)
  exact ⟨s, tr, h1, h2, h3, h4⟩

/-- Claim C19 fails on the code. The manager reached from a fresh one by
`startGroup(1)`, one record of kind 2, `endGroup()` and `doUndo(1)` has
`future = S, x, E`: `doUndo` has moved the whole group, whatever the kinds.
`doRedo(1)` then moves the two boundary entries back to `past` and leaves `x`,
which follows `S` and precedes `E`, in `future`, without replaying it: the
group is split. -/
theorem redo_leaves_unmatched_group_member :
    (dt_undo_start_group dt_undo_init 1 1).bind (fun r1 =>
      (dt_undo_record r1.1 2 20 2 200 0 7 9).bind (fun r2 =>
        (dt_undo_end_group r2.1 3).bind (fun r3 =>
          (dt_undo_do_undo r3.1 1).map (fun r4 => r4.1))))
      = some { undo_list := [],
               redo_list := [group_item 1 1, real_item 2 20 2 200 0 7 9, group_item 3 1],
               group := 0 } ∧
    dt_undo_do_redo
        { undo_list := [],
          redo_list := [group_item 1 1, real_item 2 20 2 200 0 7 9, group_item 3 1],
          group := 0 } 1
      = some ({ undo_list := [group_item 3 1, group_item 1 1],
                redo_list := [real_item 2 20 2 200 0 7 9], group := 0 },
              [Event.lock, Event.unlock]) ∧
    real_item 2 20 2 200 0 7 9 ∉ [group_item 3 1, group_item 1 1] := by
  refine ⟨by decide, by decide, by decide⟩

/-- The loop of `dt_undo_do_redo` in any mode, the entries of `future` being at
distinct addresses and the non-boundary ones having replay callbacks: the
entries it moves all match the filter, the others stay in order, nothing is
lost, and the replay calls are those of the moved non-boundary entries. -/
theorem redo_loop_general (f : Nat) (l : GList) :
    ∀ (pre : GList) (self : dt_undo_t) (g : Bool) (c : Int), self.redo_list = pre ++ l →
      ((pre ++ l).map Item.addr).Nodup → callbacks_ok l = true →
      ∃ moved kept tr,
        dt_undo_do_redo.loop f l self g c
          = some ({ undo_list := moved.reverse ++ self.undo_list, redo_list := pre ++ kept,
                    group := self.group }, tr) ∧
        (∀ m ∈ moved, type_matches m.obj.type f = true) ∧
        kept.filter (fun x => !type_matches x.obj.type f)
          = l.filter (fun x => !type_matches x.obj.type f) ∧
        (moved ++ kept).Perm l ∧
        replays tr = (moved.filter (fun x => !x.obj.is_group)).map replay_of ∧
        (∀ e ∈ tr, ∃ x, e = undo_event x) := by
  induction l with
  | nil =>
    intro pre self g c hr _ _
    refine ⟨[], [], [], ?_, by simp, rfl, by simp, rfl, by simp⟩
    cases self
    simp only [List.append_nil] at hr
    simp [dt_undo_do_redo.loop, ← hr]
  | cons x xs ih =>
    intro pre self g c hr hnd hcb
    obtain ⟨hxa, hnd1⟩ := addr_nodup_mid pre x xs hnd
    obtain ⟨hx, hxs⟩ := (callbacks_ok_cons x xs).1 hcb
    by_cases hm : type_matches x.obj.type f = true
    · obtain ⟨ev, hev, hevr, heve⟩ : ∃ ev,
          (if (!x.obj.is_group) = true then call_undo x else some []) = some ev ∧
          replays ev = ([x].filter (fun x => !x.obj.is_group)).map replay_of ∧
          (∀ e ∈ ev, ∃ y, e = undo_event y) := by
        cases hg : x.obj.is_group
        · refine ⟨[undo_event x], ?_, ?_, ?_⟩
          · simp [call_undo, hx hg, undo_event]
          · simp [replays, undo_event, replay_of, hg]
          · intro e he
            exact ⟨x, List.mem_singleton.1 he⟩
        · exact ⟨[], by simp, by simp [replays, hg], by simp⟩
      obtain ⟨moved, kept, tr, hloop, hmv, hkept, hperm, hrep, htre⟩ := ih pre
        { undo_list := x :: self.undo_list, redo_list := pre ++ xs, group := self.group }
        (if (x.obj.is_group && c == 1) = true then true else g) (int_wrap (c + 1)) rfl hnd1 hxs
      simp only [dt_undo_do_redo.loop, hm, if_true, hr, g_list_remove_append pre x xs hxa,
        g_list_prepend, hev]
      by_cases hbrk : ((!if (x.obj.is_group && c == 1) = true then true else g)
          || x.obj.is_group && decide (c > 1)) = true
      · rw [if_pos hbrk]
        refine ⟨[x], xs, ev, by simp, ?_, ?_, by simp, hevr, heve⟩
        · intro m hm1
          rw [List.mem_singleton.1 hm1]
          exact hm
        · simp [List.filter_cons, hm]
      · rw [if_neg hbrk, hloop]
        refine ⟨x :: moved, kept, ev ++ tr, by simp, ?_, ?_, ?_, ?_, ?_⟩
        · intro m hm1
          rcases List.mem_cons.1 hm1 with h | h
          · rw [h]
            exact hm
          · exact hmv m h
        · rw [hkept]
          simp [List.filter_cons, hm]
        · exact List.Perm.cons x hperm
        · rw [replays_append, hevr, hrep]
          simp [List.filter_cons]
          cases x.obj.is_group <;> simp
        · intro e he
          rcases List.mem_append.1 he with h | h
          · exact heve e h
          · exact htre e h
    · simp only [Bool.not_eq_true] at hm
      have hnd2 : (((pre ++ [x]) ++ xs).map Item.addr).Nodup := by
        simpa using hnd
      obtain ⟨moved, kept, tr, hloop, hmv, hkept, hperm, hrep, htre⟩ :=
        ih (pre ++ [x]) self g c (by simpa using hr) hnd2 hxs
      refine ⟨moved, x :: kept, tr, ?_, hmv, ?_, ?_, hrep, htre⟩
      · simp only [dt_undo_do_redo.loop, hm, hloop]
        simp
      · simp [List.filter_cons, hm, hkept]
      · exact List.perm_middle.trans (List.Perm.cons x hperm)

theorem replays_undo_events_matching (f : Nat) (moved : GList)
    (h : ∀ m ∈ moved, type_matches m.obj.type f = true) :
    ∀ r ∈ (moved.filter (fun x => !x.obj.is_group)).map replay_of,
      type_matches r.2.2.1 f = true := by
  intro r hr
  obtain ⟨x, hx, rfl⟩ := List.mem_map.1 hr
  exact h x (List.mem_of_mem_filter hx)

/-- Claim C11. Filter isolation of `doRedo`: for a manager whose `future`
entries are at distinct addresses and have their replay callbacks, `doRedo(f)`
returns and leaves every entry whose kind does not match `f` where it was: the
entries of `future` of such a kind are the same, in the same order, after the
call, and so are those of `past`; such an entry of `future` is still in
`future` and is not put into `past`; every entry of `past` is still in `past`;
and every replay call is made on an entry whose kind matches `f`.  This holds
whether or not the first matching entry is a group boundary. -/
theorem redo_filter_isolation (self : dt_undo_t) (f : Nat)
    (hnd : (self.redo_list.map Item.addr).Nodup)
    (hcb : callbacks_ok self.redo_list = true) :
    ∃ s tr, dt_undo_do_redo self f = some (s, tr) ∧
      s.redo_list.filter (fun x => !type_matches x.obj.type f)
        = self.redo_list.filter (fun x => !type_matches x.obj.type f) ∧
      s.undo_list.filter (fun x => !type_matches x.obj.type f)
        = self.undo_list.filter (fun x => !type_matches x.obj.type f) ∧
      (∀ x ∈ self.redo_list, type_matches x.obj.type f = false → x ∈ s.redo_list) ∧
      (∀ x ∈ s.undo_list, type_matches x.obj.type f = false → x ∈ self.undo_list) ∧
      (∀ x ∈ self.undo_list, x ∈ s.undo_list) ∧
      (∀ r ∈ replays tr, type_matches r.2.2.1 f = true) := by
  obtain ⟨moved, kept, tr, hloop, hmv, hkept, -, hrep, -⟩ :=
    redo_loop_general f self.redo_list [] self false 1 rfl (by simpa using hnd) hcb
  simp only [List.nil_append] at hloop
  have hmvf : moved.reverse.filter (fun x => !type_matches x.obj.type f) = [] := by
    rw [List.filter_eq_nil_iff]
    intro x hx
    simp [hmv x (List.mem_reverse.1 hx)]
  refine ⟨{ undo_list := moved.reverse ++ self.undo_list, redo_list := kept,
            group := self.group },
    [Event.lock] ++ tr ++ [Event.unlock], ?_, hkept, ?_, ?_, ?_, ?_, ?_⟩
  · unfold dt_undo_do_redo g_list_first
    rw [hloop]
  · show (moved.reverse ++ self.undo_list).filter _ = _
    rw [List.filter_append, hmvf, List.nil_append]
  · intro x hx hxm
    have h1 : x ∈ self.redo_list.filter (fun x => !type_matches x.obj.type f) :=
      List.mem_filter.2 ⟨hx, by simp [hxm]⟩
    rw [← hkept] at h1
    exact List.mem_of_mem_filter h1
  · intro x hx hxm
    rcases List.mem_append.1 hx with h | h
    · have := hmv x (List.mem_reverse.1 h)
      rw [hxm] at this
      exact absurd this (by simp)
    · exact h
  · intro x hx
    exact List.mem_append_right _ hx
  · intro r hr
    rw [replays_append, replays_append] at hr
    simp only [replays, List.nil_append, List.append_nil] at hr
    rw [hrep] at hr
    exact replays_undo_events_matching f moved hmv r hr

theorem redo_filter_isolation_witness :
    ∃ s tr,
      dt_undo_do_redo
        { undo_list := [real_item 9 90 2 900 0 7 9],
          redo_list := [real_item 8 80 2 800 0 7 9, group_item 1 1, real_item 2 20 2 200 0 7 9,
            real_item 3 30 1 300 0 8 9, group_item 4 1],
          group := 0 } 1 = some (s, tr) ∧
      s.redo_list.filter (fun x => !type_matches x.obj.type 1)
        = [real_item 8 80 2 800 0 7 9, real_item 2 20 2 200 0 7 9] ∧
      s.undo_list.filter (fun x => !type_matches x.obj.type 1)
        = [real_item 9 90 2 900 0 7 9] := by
  obtain ⟨s, tr, h1, h2, h3, -⟩ :=
    redo_filter_isolation
      { undo_list := [real_item 9 90 2 900 0 7 9],
        redo_list := [real_item 8 80 2 800 0 7 9, group_item 1 1, real_item 2 20 2 200 0 7 9,
          real_item 3 30 1 300 0 8 9, group_item 4 1],
        group := 0 } 1 (by decide) (by decide)
  exact ⟨s, tr, h1, h2, h3⟩

/-! ## Theorems: conservation of the entries -/

theorem group_span_rest (l : GList) : group_span l ++ group_rest l = l := by
  induction l with
  | nil => rfl
  | cons x xs ih =>
    cases hg : x.obj.is_group
    · simp [group_span, group_rest, hg, ih]
    · simp [group_span, group_rest, hg]

theorem undo_span_rest_perm (f : Nat) (l : GList) :
    (undo_span f l ++ undo_rest f l).Perm l := by
  induction l with
  | nil => simp [undo_span, undo_rest]
  | cons x xs ih =>
    by_cases hm : type_matches x.obj.type f = true
    · cases hg : x.obj.is_group
      · simp [undo_span, undo_rest, hm, hg]
      · simp [undo_span, undo_rest, hm, hg, group_span_rest]
    · simp only [Bool.not_eq_true] at hm
      simp only [undo_span, undo_rest, hm, Bool.false_eq_true, if_false]
      exact List.perm_middle.trans (List.Perm.cons x ih)

/-- The replay loop of `dt_undo_do_undo` calls replay callbacks only. -/
theorem replay_loop_events (f : Nat) (l : GList) :
    ∀ (g : Bool) (c : Int) (tr : List Event), dt_undo_do_undo.replay_loop f l g c = some tr →
      ∀ e ∈ tr, ∃ x, e = undo_event x := by
  induction l with
  | nil =>
    intro g c tr h e he
    simp only [dt_undo_do_undo.replay_loop, Option.some.injEq] at h
    subst h
    simp at he
  | cons x xs ih =>
    intro g c tr h e he
    by_cases hm : type_matches x.obj.type f = true
    · simp only [dt_undo_do_undo.replay_loop, hm, if_true] at h
      have hev : ∀ ev, (if (!x.obj.is_group) = true then call_undo x else some []) = some ev →
          ∀ e ∈ ev, ∃ y, e = undo_event y := by
        intro ev hev e he
        cases hg : x.obj.is_group
        · simp only [hg, Bool.not_false, if_true, call_undo] at hev
          split at hev
          · exact absurd hev (by simp)
          · simp only [Option.some.injEq] at hev
            subst hev
            exact ⟨x, List.mem_singleton.1 he⟩
        · simp only [hg, Bool.not_true, Bool.false_eq_true, if_false, Option.some.injEq] at hev
          subst hev
          simp at he
      generalize (if (x.obj.is_group && c == 1) = true then true else g) = g1 at h
      cases hE : (if (!x.obj.is_group) = true then call_undo x else some []) with
      | none =>
        rw [hE] at h
        exact absurd h (by simp)
      | some ev =>
        rw [hE] at h
        simp only at h
        by_cases hb : (!g1 || x.obj.is_group && decide (c > 1)) = true
        · rw [if_pos hb] at h
          simp only [Option.some.injEq] at h
          subst h
          exact hev ev hE e he
        · rw [if_neg hb] at h
          cases hR : dt_undo_do_undo.replay_loop f xs g1 (int_wrap (c + 1)) with
          | none =>
            rw [hR] at h
            exact absurd h (by simp)
          | some ev3 =>
            rw [hR] at h
            simp only [Option.some.injEq] at h
            subst h
            rcases List.mem_append.1 he with he | he
            · exact hev ev hE e he
            · exact ih _ _ ev3 hR e he
    · simp only [dt_undo_do_undo.replay_loop, hm] at h
      exact ih g c tr h e he

/-- A trace made of the lock, replay calls and the unlock has no release call
and frees nothing. -/
theorem locked_undo_trace (tr : List Event) (h : ∀ e ∈ tr, ∃ x, e = undo_event x) :
    releases ([Event.lock] ++ tr ++ [Event.unlock]) = [] ∧
      ∀ a, Event.free a ∉ [Event.lock] ++ tr ++ [Event.unlock] := by
  have hrel : releases tr = [] := by
    induction tr with
    | nil => rfl
    | cons e es ih =>
      obtain ⟨x, rfl⟩ := h e (List.mem_cons_self _ _)
      simp only [undo_event, releases]
      exact ih (fun e he => h e (List.mem_cons_of_mem _ he))
  constructor
  · rw [releases_append, releases_append, hrel]
    rfl
  · intro a ha
    simp only [List.mem_append, List.mem_singleton] at ha
    rcases ha with (ha | ha) | ha
    · exact absurd ha (by simp)
    · obtain ⟨x, hx⟩ := h _ ha
      simp [undo_event] at hx
    · exact absurd ha (by simp)

/-- Claim C15. Entry conservation under undo and redo: for a manager whose
entries are at distinct addresses (and whose non-boundary entries have replay
callbacks), `doUndo(f)` and `doRedo(f)` return, make no release call and free
no item, and `past` followed by `future` after the call is a permutation of
`past` followed by `future` before it: no entry is created, destroyed or
duplicated.  Hence entries that are pairwise distinct before the call are so
after it, and the addresses stay distinct. -/
theorem undo_redo_conserve (self : dt_undo_t) (f : Nat)
    (hnd : ((self.undo_list ++ self.redo_list).map Item.addr).Nodup)
    (hcb : callbacks_ok (self.undo_list ++ self.redo_list) = true) :
    (∃ s tr, dt_undo_do_undo self f = some (s, tr) ∧
      releases tr = [] ∧ (∀ a, Event.free a ∉ tr) ∧
      (s.undo_list ++ s.redo_list).Perm (self.undo_list ++ self.redo_list) ∧
      ((self.undo_list ++ self.redo_list).Nodup → (s.undo_list ++ s.redo_list).Nodup) ∧
      ((s.undo_list ++ s.redo_list).map Item.addr).Nodup) ∧
    (∃ s tr, dt_undo_do_redo self f = some (s, tr) ∧
      releases tr = [] ∧ (∀ a, Event.free a ∉ tr) ∧
      (s.undo_list ++ s.redo_list).Perm (self.undo_list ++ self.redo_list) ∧
      ((self.undo_list ++ self.redo_list).Nodup → (s.undo_list ++ s.redo_list).Nodup) ∧
      ((s.undo_list ++ s.redo_list).map Item.addr).Nodup) := by
  obtain ⟨hcbu, hcbr⟩ := (callbacks_ok_append _ _).1 hcb
  have hndu : (self.undo_list.map Item.addr).Nodup := by
    rw [List.map_append] at hnd
    exact (List.nodup_append.1 hnd).1
  have hndr : (self.redo_list.map Item.addr).Nodup := by
    rw [List.map_append] at hnd
    exact (List.nodup_append.1 hnd).2.1
  constructor
  · have hmove := move_loop_spec f self.undo_list [] self rfl (by simpa using hndu)
    simp only [List.nil_append] at hmove
    have hcb1 : callbacks_ok (undo_rest f self.undo_list) = true :=
      callbacks_ok_of_subset _ _ (undo_rest_subset f self.undo_list) hcbu
    obtain ⟨tr, htr⟩ := replay_loop_total f _ hcb1 false 1
    obtain ⟨hrel, hfree⟩ := locked_undo_trace tr (replay_loop_events f _ false 1 tr htr)
    have hperm : (undo_rest f self.undo_list
        ++ ((undo_span f self.undo_list).reverse ++ self.redo_list)).Perm
        (self.undo_list ++ self.redo_list) := by
      rw [← List.append_assoc]
      apply List.Perm.append_right
      exact (List.perm_append_comm.trans
        ((List.reverse_perm _).append_right _)).trans (undo_span_rest_perm f _)
    refine ⟨{ undo_list := undo_rest f self.undo_list,
              redo_list := (undo_span f self.undo_list).reverse ++ self.redo_list,
              group := self.group },
      [Event.lock] ++ tr ++ [Event.unlock], ?_, hrel, hfree, hperm,
      fun h => (hperm.nodup_iff).2 h, ((hperm.map Item.addr).nodup_iff).2 hnd⟩
    unfold dt_undo_do_undo g_list_first
    simp only [hmove, htr]
  · obtain ⟨moved, kept, tr, hloop, -, -, hp, -, hev⟩ :=
      redo_loop_general f self.redo_list [] self false 1 rfl (by simpa using hndr) hcbr
    simp only [List.nil_append] at hloop
    obtain ⟨hrel, hfree⟩ := locked_undo_trace tr hev
    have hperm : ((moved.reverse ++ self.undo_list) ++ kept).Perm
        (self.undo_list ++ self.redo_list) := by
      have h1 : ((moved.reverse ++ self.undo_list) ++ kept).Perm
          (self.undo_list ++ (moved ++ kept)) := by
        rw [List.append_assoc]
        refine (List.perm_append_comm.trans ?_)
        rw [List.append_assoc]
        exact List.Perm.append_left _
          (List.perm_append_comm.trans ((List.reverse_perm moved).append_right kept))
      exact h1.trans (hp.append_left _)
    refine ⟨{ undo_list := moved.reverse ++ self.undo_list, redo_list := kept,
              group := self.group },
      [Event.lock] ++ tr ++ [Event.unlock], ?_, hrel, hfree, hperm,
      fun h => (hperm.nodup_iff).2 h, ((hperm.map Item.addr).nodup_iff).2 hnd⟩
    unfold dt_undo_do_redo g_list_first
    rw [hloop]

theorem undo_redo_conserve_witness :
    (∃ s tr,
      dt_undo_do_undo
        { undo_list := [group_item 5 1, real_item 4 40 2 400 0 7 9, group_item 3 1,
            real_item 2 20 1 200 0 7 9],
          redo_list := [real_item 1 10 1 100 0 7 9], group := 0 } 1 = some (s, tr) ∧
      releases tr = [] ∧
      (s.undo_list ++ s.redo_list).Perm
        ([group_item 5 1, real_item 4 40 2 400 0 7 9, group_item 3 1,
            real_item 2 20 1 200 0 7 9] ++ [real_item 1 10 1 100 0 7 9])) ∧
    (∃ s tr,
      dt_undo_do_redo
        { undo_list := [group_item 5 1, real_item 4 40 2 400 0 7 9, group_item 3 1,
            real_item 2 20 1 200 0 7 9],
          redo_list := [real_item 1 10 1 100 0 7 9], group := 0 } 1 = some (s, tr) ∧
      releases tr = [] ∧
      (s.undo_list ++ s.redo_list).Perm
        ([group_item 5 1, real_item 4 40 2 400 0 7 9, group_item 3 1,
            real_item 2 20 1 200 0 7 9] ++ [real_item 1 10 1 100 0 7 9])) := by
  obtain ⟨⟨s, tr, h1, h2, -, h3, -⟩, ⟨s2, tr2, k1, k2, -, k3, -⟩⟩ :=
    undo_redo_conserve
      { undo_list := [group_item 5 1, real_item 4 40 2 400 0 7 9, group_item 3 1,
          real_item 2 20 1 200 0 7 9],
        redo_list := [real_item 1 10 1 100 0 7 9], group := 0 } 1 (by decide) (by decide)
  exact ⟨⟨s, tr, h1, h2, h3⟩, ⟨s2, tr2, k1, k2, k3⟩⟩

end Undo
